import Mathlib

/-!
Verification of the crypto-taxes cost-basis engine (`kraken.py`).

The Python code operates on pandas DataFrames whose monetary columns hold
`decimal.Decimal` values.  We embed those rows as Lean structures and model
`Decimal` values as exact rationals (`ℚ`): all additions and subtractions
performed by the code stay far below the 28-significant-digit context of
Python's `decimal` module, so they are exact; the one place where the
default context could round (`taxable_amount * Decimal(0.26)`) is discussed
at the definition of `taxRate` below.

Timestamps (`pandas.Timestamp`) are embedded as a pair of a calendar year
and an integer encoding the instant within that year, ordered
lexicographically; `tax_year = input_row["datetime"].year` is the first
projection.
-/

/-- Embedding of a `pandas.Timestamp`: `year` is the calendar year
(`ts.year` in Python) and `frac` encodes the instant within that year
(month, day, time packed into one integer), so that timestamp comparison
is the lexicographic order on `(year, frac)`. -/
structure DT where
  year : Int
  frac : Int
deriving DecidableEq, Repr

/-- Boolean strict order on timestamps (lexicographic). -/
def DT.ltb (a b : DT) : Bool :=
  a.year < b.year || (a.year == b.year && a.frac < b.frac)

/-- Boolean non-strict order on timestamps (lexicographic). -/
def DT.leb (a b : DT) : Bool :=
  a.year < b.year || (a.year == b.year && a.frac ≤ b.frac)

theorem DT.ltb_iff (a b : DT) :
    a.ltb b = true ↔ (a.year < b.year ∨ (a.year = b.year ∧ a.frac < b.frac)) := by
  simp [DT.ltb]

theorem DT.leb_iff (a b : DT) :
    a.leb b = true ↔ (a.year < b.year ∨ (a.year = b.year ∧ a.frac ≤ b.frac)) := by
  simp [DT.leb]

theorem DT.leb_total (a b : DT) : a.leb b = true ∨ b.leb a = true := by
  rw [DT.leb_iff, DT.leb_iff]; omega

theorem DT.leb_trans {a b c : DT} (h1 : a.leb b = true) (h2 : b.leb c = true) :
    a.leb c = true := by
  rw [DT.leb_iff] at *; omega

theorem DT.leb_antisymm {a b : DT} (h1 : a.leb b = true) (h2 : b.leb a = true) :
    a = b := by
  rw [DT.leb_iff] at *
  cases a; cases b; simp_all; omega

theorem DT.leb_refl (a : DT) : a.leb a = true := by
  rw [DT.leb_iff]; omega

theorem DT.ltb_of_ltb_of_leb {a b c : DT} (h1 : a.ltb b = true) (h2 : b.leb c = true) :
    a.ltb c = true := by
  rw [DT.ltb_iff] at *; rw [DT.leb_iff] at h2; omega

theorem DT.leb_of_ltb {a b : DT} (h : a.ltb b = true) : a.leb b = true := by
  rw [DT.ltb_iff] at h; rw [DT.leb_iff]; omega

theorem DT.not_ltb_self (a : DT) : a.ltb a = false := by
  cases h : a.ltb a
  · rfl
  · exfalso; rw [DT.ltb_iff] at h; omega

theorem DT.ltb_asymm {a b : DT} (h : a.ltb b = true) : b.ltb a = false := by
  cases hc : b.ltb a
  · rfl
  · rw [DT.ltb_iff] at h hc; omega

/-- One row of `ledger_out_df` inside `get_ledger_after_tax_computation`
(after `reset_index()`): `id` is the integer row index, `cryptocur` the
asset, `quantity`, `price`, `total` the `Decimal` columns.  The `isvalid`
flag is not stored: rows marked invalid are dropped from the list at the
end of each disposal, exactly as `ledger_out_df[ledger_out_df["isvalid"]]`
does. -/
structure LedgerRow where
  id : Nat
  cryptocur : String
  datetime : DT
  quantity : ℚ
  price : ℚ
  total : ℚ
deriving DecidableEq, Repr

/-- One row of `input_quantity_to_sell_df` (indexed by asset): a disposal
with positive magnitude `quantity`, unit `price`, `total`, and timestamp. -/
structure SellRow where
  asset : String
  price : ℚ
  total : ℚ
  quantity : ℚ
  datetime : DT
deriving DecidableEq, Repr

/-- State of the inner lot-consumption loop of
`get_ledger_after_tax_computation` for one disposal: the remaining
quantity to be sold, the three `Decimal` accumulators, the indices marked
`isvalid = False` (lots consumed whole), and the at-most-one in-place
update `(index, new quantity, new total)` performed by the
partial-consumption branch. -/
structure MState where
  remaining : ℚ
  gain : ℚ
  initial_value : ℚ
  final_value : ℚ
  removed : List Nat
  updated : Option (Nat × ℚ × ℚ)
deriving DecidableEq, Repr

/-- One iteration of the `for index, ledger_row in valid_ledger_df.iterrows()`
loop (lines 292–315 of `kraken.py`).  `price` is `input_row["price"]`.
If `remaining_quantity_to_be_sold > ledger_row["quantity"]` the whole lot
is consumed and the row is invalidated; otherwise the row's quantity and
total are updated in place and the remaining quantity becomes zero. -/
def stepLot (price : ℚ) (s : MState) (lot : LedgerRow) : MState :=
  if 0 < s.remaining then
    if lot.quantity < s.remaining then
      { remaining := s.remaining - lot.quantity
        gain := s.gain + lot.quantity * price - lot.total
        initial_value := s.initial_value + lot.total
        final_value := s.final_value + lot.quantity * price
        removed := lot.id :: s.removed
        updated := s.updated }
    else
      { remaining := 0
        gain := s.gain + s.remaining * price - s.remaining * lot.price
        initial_value := s.initial_value + s.remaining * lot.price
        final_value := s.final_value + s.remaining * price
        removed := s.removed
        updated := some (lot.id, lot.quantity - s.remaining, lot.total - s.remaining * lot.price) }
  else s

/-- Boolean eligibility filter of lines 283–287: same asset and acquired
strictly before the disposal's timestamp (`isvalid` rows only, which is
every row of the current list). -/
def eligb (s : SellRow) (r : LedgerRow) : Bool :=
  r.cryptocur == s.asset && r.datetime.ltb s.datetime

/-- The rows eligible for a disposal (`valid_ledger_df` before sorting). -/
def eligibleRows (ledger : List LedgerRow) (s : SellRow) : List LedgerRow :=
  ledger.filter (eligb s)

/-- Descending-acquisition-time relation used by
`sort_values(by=['datetime'], ascending=False)`: `a` may precede `b`
when `b.datetime ≤ a.datetime`. -/
def lifoRel (a b : LedgerRow) : Prop := b.datetime.leb a.datetime = true

instance : DecidableRel lifoRel := fun _ _ => instDecidableEqBool _ _

instance : IsTotal LedgerRow lifoRel :=
  ⟨fun a b => (DT.leb_total b.datetime a.datetime).imp id id⟩

instance : IsTrans LedgerRow lifoRel :=
  ⟨fun _ _ _ h1 h2 => DT.leb_trans h2 h1⟩

/-- The filtered ledger sorted most-recent-first (line 290,
`sort_values(by=['datetime'], ascending=False)`).  Rows with equal
timestamps are left in an order pandas does not specify (its default
quicksort is unstable); the embedding fixes one such order, and no claim
depends on the tie order. -/
def sortLifo (l : List LedgerRow) : List LedgerRow := List.insertionSort lifoRel l

/-- The whole lot-consumption loop for one disposal: filter the eligible
lots, sort them by descending acquisition time, and fold the loop body,
starting from `remaining_quantity_to_be_sold = s.quantity` and
`gain = initial_purchase_value = final_sale_value = Decimal(0)`. -/
def matchDisposal (ledger : List LedgerRow) (s : SellRow) : MState :=
  (sortLifo (eligibleRows ledger s)).foldl (stepLot s.price) ⟨s.quantity, 0, 0, 0, [], none⟩

/-- Apply the single in-place update `ledger_out_df.at[index, ...]` to a
row: the row with the stored index receives the new quantity and total. -/
def applyUpd : Option (Nat × ℚ × ℚ) → LedgerRow → LedgerRow
  | some (i, q, t), r => if r.id = i then { r with quantity := q, total := t } else r
  | none, r => r

/-- End-of-disposal ledger rewrite (lines 302, 312–314, 317): rows marked
invalid are dropped, the in-place update is applied, original row order is
preserved. -/
def applyMatch (ledger : List LedgerRow) (ms : MState) : List LedgerRow :=
  (ledger.filter (fun r => !(ms.removed.contains r.id))).map (applyUpd ms.updated)

/-- Accumulator for `output_gains`, `output_initial_values`,
`output_final_values`: one association list keyed by `(tax_year, asset)`
holding the triple `(gain, initial value, final value)`, in key insertion
order (Python dicts preserve insertion order, and the result loop iterates
over `output_gains.keys()`). -/
abbrev GainsAcc := List ((Int × String) × (ℚ × ℚ × ℚ))

/-- Lines 275–278: seed the three dictionaries with `Decimal(0)` when the
key is new. -/
def ensureKey (acc : GainsAcc) (key : Int × String) : GainsAcc :=
  if acc.any (fun e => e.1 == key) then acc else acc ++ [(key, (0, 0, 0))]

/-- Lines 320–322: add this disposal's accumulators to the dictionary
entries for its key. -/
def addToKey (acc : GainsAcc) (key : Int × String) (g iv fv : ℚ) : GainsAcc :=
  acc.map (fun e => if e.1 == key then (e.1, (e.2.1 + g, e.2.2.1 + iv, e.2.2.2 + fv)) else e)

/-- The body of the outer `for asset, input_row in
input_quantity_to_sell_df.iterrows()` loop: seed the dictionaries for the
key `(input_row["datetime"].year, asset)`, then — only when
`remaining_quantity_to_be_sold > 0` — run the matching loop, rewrite the
ledger, and accumulate the results. -/
def processSell (st : List LedgerRow × GainsAcc) (s : SellRow) : List LedgerRow × GainsAcc :=
  let key : Int × String := (s.datetime.year, s.asset)
  let acc1 := ensureKey st.2 key
  if 0 < s.quantity then
    let ms := matchDisposal st.1 s
    (applyMatch st.1 ms, addToKey acc1 key ms.gain ms.initial_value ms.final_value)
  else
    (st.1, addToKey acc1 key 0 0 0)

/-- One row of the returned `gains_df` (lines 344–352). -/
structure GainsRow where
  year : Int
  asset : String
  gain : ℚ
  initial_purchase_value : ℚ
  final_sale_value : ℚ
deriving DecidableEq, Repr

/-- Embedding of `get_ledger_after_tax_computation`: fold the disposal
rows over the ledger, then lay the dictionaries out as the `gains_df`
rows. -/
def get_ledger_after_tax_computation (ledger : List LedgerRow) (sells : List SellRow) :
    List LedgerRow × List GainsRow :=
  let p := sells.foldl processSell (ledger, [])
  (p.1, p.2.map (fun e => ⟨e.1.1, e.1.2, e.2.1, e.2.2.1, e.2.2.2⟩))

/-- The ledger rewrite performed by one disposal, in isolation (used to
state per-disposal properties; `processSell` computes exactly this on its
first component). -/
def applySell (ledger : List LedgerRow) (s : SellRow) : List LedgerRow :=
  if 0 < s.quantity then applyMatch ledger (matchDisposal ledger s) else ledger

theorem processSell_fst (st : List LedgerRow × GainsAcc) (s : SellRow) :
    (processSell st s).1 = applySell st.1 s := by
  unfold processSell applySell
  split <;> rfl

/-- Total quantity held in the ledger for one asset. -/
def assetTotal (a : String) (ledger : List LedgerRow) : ℚ :=
  (ledger.map (fun r => if r.cryptocur == a then r.quantity else 0)).sum

/-- Total quantity of the lots eligible for a disposal. -/
def eligibleTotal (ledger : List LedgerRow) (s : SellRow) : ℚ :=
  ((eligibleRows ledger s).map (fun r => r.quantity)).sum

/-- Total original cost (`total` column) of the lots eligible for a
disposal. -/
def eligibleCostTotal (ledger : List LedgerRow) (s : SellRow) : ℚ :=
  ((eligibleRows ledger s).map (fun r => r.total)).sum

/-- A disposal sequence is feasible when every disposal, at the moment it
is processed, asks for no more than the total quantity of its eligible
lots. -/
def feasibleSells : List LedgerRow → List SellRow → Bool
  | _, [] => true
  | led, s :: rest =>
      decide (s.quantity ≤ eligibleTotal led s) && feasibleSells (applySell led s) rest

/-- Sum of the disposal quantities for one asset. -/
def sellsTotalFor (a : String) (sells : List SellRow) : ℚ :=
  (sells.map (fun s => if s.asset == a then s.quantity else 0)).sum

/-- Ascending-disposal-time relation used by
`input_quantity_already_sold_df.sort_values(by=['datetime'], ascending=True)`. -/
def sellAscRel (a b : SellRow) : Prop := a.datetime.leb b.datetime = true

instance : DecidableRel sellAscRel := fun _ _ => instDecidableEqBool _ _

instance : IsTotal SellRow sellAscRel :=
  ⟨fun a b => (DT.leb_total a.datetime b.datetime).imp id id⟩

instance : IsTrans SellRow sellAscRel :=
  ⟨fun _ _ _ h1 h2 => DT.leb_trans h1 h2⟩

/-- Embedding of `compute_taxes` (lines 358–376): split the ledger into
disposals (`quantity < 0`, magnitudes negated, sorted by ascending
datetime) and acquisitions (`quantity >= 0`, `total` negated), then run
the matching engine. -/
def compute_taxes (ledger : List LedgerRow) : List LedgerRow × List GainsRow :=
  let sells := (ledger.filter (fun r => decide (r.quantity < 0))).map
    (fun r => ({ asset := r.cryptocur, price := r.price, total := r.total,
                 quantity := -r.quantity, datetime := r.datetime } : SellRow))
  let buys := (ledger.filter (fun r => decide (0 ≤ r.quantity))).map
    (fun r => { r with total := -r.total })
  get_ledger_after_tax_computation buys (List.insertionSort sellAscRel sells)

/-- Exact rational value of the Python expression `Decimal(0.26)`
(line 693 of `kraken.py`): `Decimal` applied to the binary64 float
literal `0.26`, whose exact value is `1170935903116329 / 2^52`, i.e.
`0.26000000000000000888178419700125232338905334472656 25` — not `26/100`. -/
def taxRate : ℚ := 1170935903116329 / 4503599627370496

/-- Embedding of `calculate_taxes_with_franchigia` (lines 675–693).  The
`year` argument is accepted and ignored, exactly as in the source.  In
Python the final multiplication is rounded to the 28-significant-digit
decimal context; we keep the exact product, which agrees with the rounded
value on whether the result equals any short decimal such as 130. -/
def calculate_taxes_with_franchigia (gain : ℚ) (_year : Int) : ℚ :=
  if |gain| ≤ 2000 then 0
  else if 0 < gain then (gain - 2000) * taxRate
  else (gain + 2000) * taxRate

/-- One row of the ledger as consumed by `calculate_year_end_balances`:
the event timestamp (`date` column), the normalized asset name and the
signed `Decimal` amount. -/
structure VRow where
  date : DT
  assetnorm : String
  decimalamount : ℚ
deriving DecidableEq, Repr

/-- One row of the OHLC price series: multi-index `(date, crypto)` plus
the `price` column.  Dates in the series are normalized to day
granularity by the collaborator that builds it. -/
structure PRow where
  date : DT
  crypto : String
  price : ℚ
deriving DecidableEq, Repr

/-- One entry of a `year_summary` list built by
`calculate_year_end_balances`.  The Python code stores the three numeric
fields converted with `float(...)`; we keep the exact `Decimal` values
the floats are computed from, since the claims under verification concern
which price is selected and how entries are ordered, not float rounding. -/
structure YEntry where
  asset : String
  balance : ℚ
  price : ℚ
  value : ℚ
deriving DecidableEq, Repr

/-- Encoding of the instant `December 31, 00:00` inside the `frac` field
of a year's timestamps (month, day, hour, minute packed as MMDDhhmm);
`pd.to_datetime(f"{year}-12-31")` is midnight, so ledger events later on
December 31 compare strictly greater, as in pandas. -/
def dec31code : Int := 12310000

/-- The `year_end_datetime` for a year. -/
def yearEndDT (y : Int) : DT := ⟨y, dec31code⟩

/-- The sorted list of distinct years appearing in the ledger
(`ledger_df['date'].dt.year.unique()`, then `sorted(years)`). -/
def yearsOf (ledger : List VRow) : List Int :=
  List.insertionSort (fun a b : Int => a ≤ b) ((ledger.map (fun r => r.date.year)).dedup)

/-- Accumulate one ledger row into `balance_by_asset` (lines 401–408):
a dict keyed by asset in first-occurrence order. -/
def upsertBal (acc : List (String × ℚ)) (a : String) (q : ℚ) : List (String × ℚ) :=
  if acc.any (fun e => e.1 == a) then
    acc.map (fun e => if e.1 == a then (e.1, e.2 + q) else e)
  else acc ++ [(a, q)]

/-- Running balances per asset over all ledger rows dated on or before
`yEnd` (`ledger_df[ledger_df['date'] <= year_end_date]`). -/
def balancesUntil (ledger : List VRow) (yEnd : DT) : List (String × ℚ) :=
  (ledger.filter (fun r => r.date.leb yEnd)).foldl
    (fun acc r => upsertBal acc r.assetnorm r.decimalamount) []

/-- Result of the price lookup for one asset at a year end: the selected
price and whether a missing-price warning was printed. -/
structure PriceResult where
  price : ℚ
  warned : Bool
deriving DecidableEq, Repr

/-- Maximum of two timestamps. -/
def dtMax (a b : DT) : DT := if a.leb b then b else a

/-- Maximum of a list of timestamps (`valid_dates.max()`), `none` when
the list is empty. -/
def maxDT : List DT → Option DT
  | [] => none
  | d :: ds => some (ds.foldl dtMax d)

/-- Embedding of the price-selection logic of
`calculate_year_end_balances` (lines 421–452): use the price recorded at
exactly the year-end date if the series has one for this asset;
otherwise use the price at the most recent date on or before the year
end among this asset's rows; otherwise price 0 with a warning.  The two
inner `none` branches are unreachable (the maximum of a nonempty list of
this asset's dates is one of this asset's dates) and mirror the fact
that the Python code would only reach its generic `except` handler,
which also yields price 0 and a warning. -/
def lookupPrice (ohlc : List PRow) (asset : String) (yEnd : DT) : PriceResult :=
  match ohlc.find? (fun p => p.date == yEnd && p.crypto == asset) with
  | some p => ⟨p.price, false⟩
  | none =>
    match maxDT (((ohlc.filter (fun p => p.crypto == asset)).map (fun p => p.date)).filter
        (fun d => d.leb yEnd)) with
    | some m =>
      match (ohlc.filter (fun p => p.crypto == asset)).find? (fun p => p.date == m) with
      | some p => ⟨p.price, false⟩
      | none => ⟨0, true⟩
    | none => ⟨0, true⟩

/-- Build the summary entry for one asset with nonzero balance
(lines 414–459): the reference asset is valued at unit price 1, every
other asset through `lookupPrice`; `value = balance * price`. -/
def yEntryFor (ohlc : List PRow) (refAsset : String) (yEnd : DT) (a : String) (b : ℚ) : YEntry :=
  if a == refAsset then ⟨a, b, 1, b⟩
  else
    let pr := lookupPrice ohlc a yEnd
    ⟨a, b, pr.price, b * pr.price⟩

/-- Ordering of summary entries by asset name (line 464:
`year_summary.sort(key=lambda x: x['Asset'])`). -/
def assetLeRel (e1 e2 : YEntry) : Prop := e1.asset ≤ e2.asset

instance : DecidableRel assetLeRel := fun e1 e2 => (inferInstance : Decidable (e1.asset ≤ e2.asset))

instance : IsTotal YEntry assetLeRel := ⟨fun a b => le_total a.asset b.asset⟩

instance : IsTrans YEntry assetLeRel := ⟨fun _ _ _ h1 h2 => le_trans h1 h2⟩

/-- The `year_summary` built for one year, sorted by asset name, paired
with that year's `year_total_value` (which the Python code only prints):
assets with zero balance or in the exception set are skipped. -/
def yearSummaryFor (ledger : List VRow) (ohlc : List PRow) (refAsset : String)
    (exceptions : List String) (y : Int) : List YEntry × ℚ :=
  let items := (balancesUntil ledger (yearEndDT y)).filterMap
    (fun e => if e.2 ≠ 0 ∧ e.1 ∉ exceptions then
        some (yEntryFor ohlc refAsset (yearEndDT y) e.1 e.2) else none)
  (List.insertionSort assetLeRel items, (items.map (fun e => e.value)).sum)

/-- Embedding of `calculate_year_end_balances` (lines 378–479): the loop
rebuilds `year_summary` for every year of the ledger in ascending order
and prints each table and total; the function returns only the variable
left by the final iteration, i.e. the summary list of the latest year.
(For an empty ledger the Python function would raise `NameError`, since
`year_summary` is never bound; the embedding returns the empty list and
the theorems below assume a nonempty ledger.) -/
def calculate_year_end_balances (ledger : List VRow) (ohlc : List PRow)
    (refAsset : String) (exceptions : List String) : List YEntry :=
  (yearsOf ledger).foldl (fun _ y => (yearSummaryFor ledger ohlc refAsset exceptions y).1) []

/-! ### Basic properties of the lot-consumption loop -/

theorem stepLot_of_nonpos {p : ℚ} {s : MState} (r : LedgerRow) (h : ¬ 0 < s.remaining) :
    stepLot p s r = s := by
  unfold stepLot
  rw [if_neg h]

theorem foldl_stepLot_of_nonpos {p : ℚ} :
    ∀ (l : List LedgerRow) (s : MState), ¬ 0 < s.remaining →
      l.foldl (stepLot p) s = s
  | [], _, _ => rfl
  | r :: l, s, h => by
    rw [List.foldl_cons, stepLot_of_nonpos r h, foldl_stepLot_of_nonpos l s h]

theorem stepLot_removed_sub {p : ℚ} (s : MState) (r : LedgerRow) :
    s.removed ⊆ (stepLot p s r).removed := by
  unfold stepLot
  split
  · split
    · exact List.subset_cons_self _ _
    · exact fun _ h => h
  · exact fun _ h => h

theorem foldl_stepLot_removed_sub {p : ℚ} :
    ∀ (l : List LedgerRow) (s : MState), s.removed ⊆ (l.foldl (stepLot p) s).removed
  | [], _ => fun _ h => h
  | r :: l, s => fun _ hx =>
    foldl_stepLot_removed_sub l (stepLot p s r) (stepLot_removed_sub s r hx)

theorem foldl_stepLot_removed_from {p : ℚ} :
    ∀ (l : List LedgerRow) (s : MState) (x : Nat),
      x ∈ (l.foldl (stepLot p) s).removed → x ∈ s.removed ∨ ∃ r ∈ l, r.id = x
  | [], _, _, hx => Or.inl hx
  | r :: l, s, x, hx => by
    rcases foldl_stepLot_removed_from l (stepLot p s r) x hx with h | ⟨r2, hr2, hid⟩
    · unfold stepLot at h
      split at h
      · split at h
        · rcases List.mem_cons.mp h with h | h
          · exact Or.inr ⟨r, List.mem_cons_self r l, h.symm⟩
          · exact Or.inl h
        · exact Or.inl h
      · exact Or.inl h
    · exact Or.inr ⟨r2, List.mem_cons_of_mem r hr2, hid⟩

theorem foldl_stepLot_updated_from {p : ℚ} :
    ∀ (l : List LedgerRow) (s : MState) (u : Nat × ℚ × ℚ),
      (l.foldl (stepLot p) s).updated = some u →
      s.updated = some u ∨ ∃ r ∈ l, u.1 = r.id ∧ 0 ≤ u.2.1
  | [], _, _, hu => Or.inl hu
  | r :: l, s, u, hu => by
    rcases foldl_stepLot_updated_from l (stepLot p s r) u hu with h | ⟨r2, hr2, hid, hq⟩
    · unfold stepLot at h
      split at h
      · split at h
        · exact Or.inl h
        · rename_i hrem hle
          rw [Option.some_inj] at h
          refine Or.inr ⟨r, List.mem_cons_self r l, ?_, ?_⟩
          · rw [← h]
          · rw [← h]
            simp only
            linarith [not_lt.mp hle]
      · exact Or.inl h
    · exact Or.inr ⟨r2, List.mem_cons_of_mem r hr2, hid, hq⟩

theorem stepLot_gain_inv {p : ℚ} (s : MState) (r : LedgerRow)
    (h : s.gain = s.final_value - s.initial_value) :
    (stepLot p s r).gain = (stepLot p s r).final_value - (stepLot p s r).initial_value := by
  unfold stepLot
  split
  · split <;> (simp only; linarith)
  · exact h

theorem foldl_stepLot_gain_inv {p : ℚ} :
    ∀ (l : List LedgerRow) (s : MState), s.gain = s.final_value - s.initial_value →
      (l.foldl (stepLot p) s).gain
        = (l.foldl (stepLot p) s).final_value - (l.foldl (stepLot p) s).initial_value
  | [], _, h => h
  | r :: l, s, h => foldl_stepLot_gain_inv l (stepLot p s r) (stepLot_gain_inv s r h)

theorem matchDisposal_gain_inv (ledger : List LedgerRow) (s : SellRow) :
    (matchDisposal ledger s).gain
      = (matchDisposal ledger s).final_value - (matchDisposal ledger s).initial_value := by
  unfold matchDisposal
  exact foldl_stepLot_gain_inv _ _ (by norm_num)

/-! ### Reconciliation invariant (claim C2) -/

/-- Every dictionary entry satisfies `gain = final - initial`. -/
def GoodAcc (acc : GainsAcc) : Prop :=
  ∀ e ∈ acc, e.2.1 = e.2.2.2 - e.2.2.1

theorem goodAcc_ensureKey {acc : GainsAcc} (key : Int × String) (h : GoodAcc acc) :
    GoodAcc (ensureKey acc key) := by
  unfold ensureKey
  split
  · exact h
  · intro e he
    rcases List.mem_append.mp he with he | he
    · exact h e he
    · rcases List.mem_singleton.mp he with rfl
      norm_num

theorem goodAcc_addToKey {acc : GainsAcc} (key : Int × String) {g iv fv : ℚ}
    (h : GoodAcc acc) (hg : g = fv - iv) : GoodAcc (addToKey acc key g iv fv) := by
  unfold addToKey
  intro e he
  rcases List.mem_map.mp he with ⟨e0, he0, hmap⟩
  by_cases hk : e0.1 == key
  · rw [if_pos hk] at hmap
    rw [← hmap]
    have := h e0 he0
    simp only
    linarith
  · rw [if_neg hk] at hmap
    rw [← hmap]
    exact h e0 he0

theorem goodAcc_processSell (st : List LedgerRow × GainsAcc) (s : SellRow)
    (h : GoodAcc st.2) : GoodAcc (processSell st s).2 := by
  unfold processSell
  split
  · exact goodAcc_addToKey _ (goodAcc_ensureKey _ h) (matchDisposal_gain_inv st.1 s)
  · exact goodAcc_addToKey _ (goodAcc_ensureKey _ h) (by norm_num)

theorem goodAcc_foldl_processSell :
    ∀ (sells : List SellRow) (st : List LedgerRow × GainsAcc), GoodAcc st.2 →
      GoodAcc (sells.foldl processSell st).2
  | [], _, h => h
  | s :: sells, st, h =>
    goodAcc_foldl_processSell sells (processSell st s) (goodAcc_processSell st s h)

/-- C2.  For every Realized Gain Record produced by the gain-computation
entry point `get_ledger_after_tax_computation` — one per (tax year,
asset) bucket, with `initial_purchase_value` as cost basis and
`final_sale_value` as proceeds — the `gain` field equals proceeds minus
cost basis exactly, in the exact decimal arithmetic modelled by `ℚ`. -/
theorem c2_gain_reconciliation (ledger : List LedgerRow) (sells : List SellRow)
    (row : GainsRow) (hrow : row ∈ (get_ledger_after_tax_computation ledger sells).2) :
    row.gain = row.final_sale_value - row.initial_purchase_value := by
  unfold get_ledger_after_tax_computation at hrow
  simp only at hrow
  rcases List.mem_map.mp hrow with ⟨e, he, hmap⟩
  have hgood := goodAcc_foldl_processSell sells (ledger, []) (by intro e he; cases he) e he
  rw [← hmap]
  exact hgood

/-- Witness for C2: the spec's §8 example scenario (two lots of asset A,
one disposal of 1.5 units at unit price 300) produces the single record
`(2021, A, gain 200, cost basis 250, proceeds 450)`, and the theorem
applies to it. -/
theorem c2_witness :
    (⟨2021, "A", 200, 250, 450⟩ : GainsRow).gain
      = (⟨2021, "A", 200, 250, 450⟩ : GainsRow).final_sale_value
        - (⟨2021, "A", 200, 250, 450⟩ : GainsRow).initial_purchase_value :=
  c2_gain_reconciliation
    [⟨0, "A", ⟨2021, 101⟩, 1, 100, 100⟩, ⟨1, "A", ⟨2021, 601⟩, 1, 200, 200⟩]
    [⟨"A", 300, 450, 3/2, ⟨2021, 1201⟩⟩] _
    (by
      norm_num [get_ledger_after_tax_computation, processSell, matchDisposal, eligibleRows,
        eligb, sortLifo, List.insertionSort, List.orderedInsert, lifoRel, DT.leb, DT.ltb,
        stepLot, ensureKey, addToKey])

/-! ### Tax assessment with exemption threshold (claims C6, C7) -/

/-- C6.  For the exemption year the tax assessment
`calculate_taxes_with_franchigia` returns 0 whenever `abs(gain) <= 2000`;
for `gain > 2000` it returns `(gain - 2000) * rate`; and for
`gain < -2000` it returns `(gain + 2000) * rate` with a negative taxable
amount.  Here `rate` is the code's flat rate constant `taxRate`, the
exact value of the literal `Decimal(0.26)` (see C7 for the fact that
this constant is not exactly 26/100). -/
theorem c6_franchigia_piecewise (gain : ℚ) (year : Int) :
    (|gain| ≤ 2000 → calculate_taxes_with_franchigia gain year = 0) ∧
    (2000 < gain → calculate_taxes_with_franchigia gain year = (gain - 2000) * taxRate) ∧
    (gain < -2000 →
      calculate_taxes_with_franchigia gain year = (gain + 2000) * taxRate ∧ gain + 2000 < 0) := by
  refine ⟨fun h => ?_, fun h => ?_, fun h => ?_⟩
  · rw [calculate_taxes_with_franchigia, if_pos h]
  · have habs : ¬ |gain| ≤ 2000 := by
      rw [abs_le]
      intro hc
      linarith [hc.2]
    rw [calculate_taxes_with_franchigia, if_neg habs, if_pos (by linarith)]
  · have habs : ¬ |gain| ≤ 2000 := by
      rw [abs_le]
      intro hc
      linarith [hc.1]
    have hneg : ¬ 0 < gain := by linarith
    rw [calculate_taxes_with_franchigia, if_neg habs, if_neg hneg]
    exact ⟨rfl, by linarith⟩

/-- Witness for C6 at concrete gains 1000, 2500 and -2500 in year 2024. -/
theorem c6_witness :
    calculate_taxes_with_franchigia 1000 2024 = 0 ∧
    calculate_taxes_with_franchigia 2500 2024 = (2500 - 2000) * taxRate ∧
    calculate_taxes_with_franchigia (-2500) 2024 = (-2500 + 2000) * taxRate :=
  ⟨(c6_franchigia_piecewise 1000 2024).1 (by norm_num),
   (c6_franchigia_piecewise 2500 2024).2.1 (by norm_num),
   ((c6_franchigia_piecewise (-2500) 2024).2.2 (by norm_num)).1⟩

/-- C7 (code bug).  The claimed result is `tax_due = 130` exactly for a
gain of 2500 in the exemption year; but line 693 of `kraken.py` builds
the rate as `Decimal(0.26)` — `Decimal` of the binary64 float `0.26` —
instead of `Decimal('0.26')`, so the rate is
`0.26000000000000000888...`, not `26/100`, and the tax on the taxable
amount of 500 is `130.00000000000000444089...`, not exactly 130.  This
theorem evaluates the code at the failing input: the taxable amount is
500, the result is `500 * taxRate`, and that value differs from 130. -/
theorem c7_tax_at_2500_not_130 :
    calculate_taxes_with_franchigia 2500 2024 = 500 * taxRate ∧
    taxRate ≠ 26 / 100 ∧
    calculate_taxes_with_franchigia 2500 2024 ≠ 130 := by
  refine ⟨?_, ?_, ?_⟩ <;> norm_num [calculate_taxes_with_franchigia, taxRate]

/-! ### One gains-table bucket per disposal (claim C10) -/

/-- The accumulator has an entry with the given `(tax_year, asset)` key. -/
def hasKey (acc : GainsAcc) (key : Int × String) : Prop :=
  ∃ e ∈ acc, e.1 = key

theorem hasKey_ensureKey (acc : GainsAcc) (key : Int × String) :
    hasKey (ensureKey acc key) key := by
  unfold ensureKey
  split
  · rename_i h
    rcases List.any_eq_true.mp h with ⟨e, he, heq⟩
    exact ⟨e, he, beq_iff_eq.mp heq⟩
  · exact ⟨(key, (0, 0, 0)), List.mem_append_right _ (List.mem_singleton_self _), rfl⟩

theorem hasKey_ensureKey_mono {acc : GainsAcc} {key' : Int × String} (key : Int × String)
    (h : hasKey acc key') : hasKey (ensureKey acc key) key' := by
  unfold ensureKey
  rcases h with ⟨e, he, hkey⟩
  split
  · exact ⟨e, he, hkey⟩
  · exact ⟨e, List.mem_append_left _ he, hkey⟩

theorem hasKey_addToKey {acc : GainsAcc} {key' : Int × String} (key : Int × String)
    (g iv fv : ℚ) (h : hasKey acc key') : hasKey (addToKey acc key g iv fv) key' := by
  unfold addToKey
  rcases h with ⟨e, he, hkey⟩
  by_cases hk : e.1 == key
  · exact ⟨(e.1, (e.2.1 + g, e.2.2.1 + iv, e.2.2.2 + fv)),
      List.mem_map.mpr ⟨e, he, by rw [if_pos hk]⟩, hkey⟩
  · exact ⟨e, List.mem_map.mpr ⟨e, he, by rw [if_neg hk]⟩, hkey⟩

theorem hasKey_processSell_self (st : List LedgerRow × GainsAcc) (s : SellRow) :
    hasKey (processSell st s).2 (s.datetime.year, s.asset) := by
  unfold processSell
  split
  · exact hasKey_addToKey _ _ _ _ (hasKey_ensureKey st.2 _)
  · exact hasKey_addToKey _ _ _ _ (hasKey_ensureKey st.2 _)

theorem hasKey_processSell_mono {st : List LedgerRow × GainsAcc} {key' : Int × String}
    (s : SellRow) (h : hasKey st.2 key') : hasKey (processSell st s).2 key' := by
  unfold processSell
  split
  · exact hasKey_addToKey _ _ _ _ (hasKey_ensureKey_mono _ h)
  · exact hasKey_addToKey _ _ _ _ (hasKey_ensureKey_mono _ h)

theorem hasKey_foldl_processSell_mono :
    ∀ (sells : List SellRow) (st : List LedgerRow × GainsAcc) (key' : Int × String),
      hasKey st.2 key' → hasKey (sells.foldl processSell st).2 key'
  | [], _, _, h => h
  | s :: sells, st, key', h =>
    hasKey_foldl_processSell_mono sells (processSell st s) key' (hasKey_processSell_mono s h)

theorem hasKey_foldl_processSell :
    ∀ (sells : List SellRow) (st : List LedgerRow × GainsAcc) (s : SellRow), s ∈ sells →
      hasKey (sells.foldl processSell st).2 (s.datetime.year, s.asset)
  | s0 :: sells, st, s, hs => by
    rcases List.mem_cons.mp hs with rfl | hs
    · exact hasKey_foldl_processSell_mono sells (processSell st s) _
        (hasKey_processSell_self st s)
    · exact hasKey_foldl_processSell sells (processSell st s0) s hs

/-- C10.  Every disposal processed by the gain-computation entry point
produces an entry in the returned gains table keyed by the calendar year
of the disposal timestamp and the asset; and when a lone disposal has no
eligible prior lot at all, its entry carries gain, initial purchase value
and final sale value all exactly zero. -/
theorem c10_bucket_per_disposal (ledger : List LedgerRow) (sells : List SellRow)
    (s : SellRow) (hs : s ∈ sells) :
    (∃ row ∈ (get_ledger_after_tax_computation ledger sells).2,
        row.year = s.datetime.year ∧ row.asset = s.asset) ∧
    (sells = [s] → eligibleRows ledger s = [] →
      (get_ledger_after_tax_computation ledger sells).2
        = [⟨s.datetime.year, s.asset, 0, 0, 0⟩]) := by
  constructor
  · have hk := hasKey_foldl_processSell sells (ledger, []) s hs
    rcases hk with ⟨e, he, hkey⟩
    refine ⟨⟨e.1.1, e.1.2, e.2.1, e.2.2.1, e.2.2.2⟩, ?_, ?_, ?_⟩
    · unfold get_ledger_after_tax_computation
      simp only
      exact List.mem_map.mpr ⟨e, he, rfl⟩
    · rw [hkey]
    · rw [hkey]
  · rintro rfl helig
    unfold get_ledger_after_tax_computation
    simp only [List.foldl_cons, List.foldl_nil]
    unfold processSell matchDisposal
    rw [helig]
    simp only [sortLifo, List.insertionSort, List.foldl_nil]
    unfold ensureKey addToKey applyMatch
    split
    · norm_num [applyUpd]
    · norm_num

/-- Witness for C10: a single BTC disposal whose only candidate lot was
acquired after the disposal timestamp (hence no eligible lot): the gains
table still gets the `(2021, BTC)` bucket, with all-zero values. -/
theorem c10_witness :
    (∃ row ∈ (get_ledger_after_tax_computation [⟨0, "BTC", ⟨2021, 301⟩, 5, 10, 50⟩]
        [⟨"BTC", 12, 60, 5, ⟨2021, 201⟩⟩]).2, row.year = 2021 ∧ row.asset = "BTC") ∧
    (get_ledger_after_tax_computation [⟨0, "BTC", ⟨2021, 301⟩, 5, 10, 50⟩]
        [⟨"BTC", 12, 60, 5, ⟨2021, 201⟩⟩]).2 = [⟨2021, "BTC", 0, 0, 0⟩] := by
  have h := c10_bucket_per_disposal [⟨0, "BTC", ⟨2021, 301⟩, 5, 10, 50⟩]
    [⟨"BTC", 12, 60, 5, ⟨2021, 201⟩⟩] ⟨"BTC", 12, 60, 5, ⟨2021, 201⟩⟩
    (List.mem_singleton_self _)
  exact ⟨h.1, h.2 rfl (by decide)⟩

/-! ### Exactly-exhausted lots are kept, not retired (claim C1) -/

/-- Counterexample to C1 as stated: one BTC lot of quantity 5 and one
disposal of exactly 5 units.  The disposal's remaining quantity equals
the lot's quantity, so the equality branch of the loop runs: the lot's
quantity is updated to zero but `isvalid` is never set to `False`, and
the returned inventory contains the lot with remaining quantity zero —
contradicting "the returned inventory never contains a lot with
remaining quantity zero". -/
theorem c1_counterexample :
    (get_ledger_after_tax_computation [⟨0, "BTC", ⟨2021, 101⟩, 5, 10, 50⟩]
        [⟨"BTC", 12, 60, 5, ⟨2021, 201⟩⟩]).1
      = [⟨0, "BTC", ⟨2021, 101⟩, 0, 10, 0⟩] := by
  norm_num [get_ledger_after_tax_computation, processSell, matchDisposal, eligibleRows,
    eligb, sortLifo, List.insertionSort, List.orderedInsert, lifoRel, DT.leb, DT.ltb,
    stepLot, applyMatch, applyUpd, ensureKey, addToKey]

theorem foldl_stepLot_updated_not_removed {p : ℚ} :
    ∀ (l : List LedgerRow) (s : MState),
      (l.map (fun r => r.id)).Nodup →
      (∀ r ∈ l, r.id ∉ s.removed) →
      s.updated = none →
      ∀ u, (l.foldl (stepLot p) s).updated = some u →
        u.1 ∉ (l.foldl (stepLot p) s).removed
  | [], s, _, _, hnone, u, hu => by
    rw [List.foldl_nil] at hu
    rw [hnone] at hu
    cases hu
  | lot :: l, s, hnd, hfresh, hnone, u, hu => by
    rw [List.map_cons, List.nodup_cons] at hnd
    rw [List.foldl_cons] at hu ⊢
    by_cases h0 : 0 < s.remaining
    · by_cases hlt : lot.quantity < s.remaining
      · have hstep : stepLot p s lot =
            { remaining := s.remaining - lot.quantity
              gain := s.gain + lot.quantity * p - lot.total
              initial_value := s.initial_value + lot.total
              final_value := s.final_value + lot.quantity * p
              removed := lot.id :: s.removed
              updated := s.updated } := by
          unfold stepLot
          rw [if_pos h0, if_pos hlt]
        rw [hstep] at hu ⊢
        refine foldl_stepLot_updated_not_removed l _ hnd.2 ?_ ?_ u hu
        · intro r hr
          simp only [List.mem_cons]
          push_neg
          refine ⟨?_, hfresh r (List.mem_cons_of_mem lot hr)⟩
          intro hcontra
          exact hnd.1 (hcontra ▸ List.mem_map.mpr ⟨r, hr, rfl⟩)
        · simpa using hnone
      · have hstep : stepLot p s lot =
            { remaining := 0
              gain := s.gain + s.remaining * p - s.remaining * lot.price
              initial_value := s.initial_value + s.remaining * lot.price
              final_value := s.final_value + s.remaining * p
              removed := s.removed
              updated := some (lot.id, lot.quantity - s.remaining,
                lot.total - s.remaining * lot.price) } := by
          unfold stepLot
          rw [if_pos h0, if_neg hlt]
        rw [hstep] at hu ⊢
        rw [foldl_stepLot_of_nonpos l _ (by norm_num)] at hu ⊢
        simp only at hu
        rw [Option.some_inj] at hu
        rw [← hu]
        exact hfresh lot (List.mem_cons_self lot l)
    · rw [stepLot_of_nonpos lot h0] at hu ⊢
      exact foldl_stepLot_updated_not_removed l s hnd.2
        (fun r hr => hfresh r (List.mem_cons_of_mem lot hr)) hnone u hu

/-- Membership in the sorted eligible list is membership in the ledger
plus eligibility. -/
theorem mem_sortLifo_elig {ledger : List LedgerRow} {s : SellRow} {r : LedgerRow} :
    r ∈ sortLifo (eligibleRows ledger s) ↔ (r ∈ ledger ∧ eligb s r = true) := by
  unfold sortLifo eligibleRows
  rw [List.mem_insertionSort, List.mem_filter]

/-- The row indices of the sorted eligible list are distinct whenever the
ledger's are. -/
theorem sortLifo_ids_nodup {ledger : List LedgerRow} {s : SellRow}
    (hnd : (ledger.map (fun r => r.id)).Nodup) :
    ((sortLifo (eligibleRows ledger s)).map (fun r => r.id)).Nodup := by
  have hperm : List.Perm (sortLifo (eligibleRows ledger s)) (eligibleRows ledger s) :=
    List.perm_insertionSort _ _
  have hsub : List.Sublist ((eligibleRows ledger s).map (fun r => r.id))
      (ledger.map (fun r => r.id)) :=
    (List.filter_sublist ledger).map _
  exact ((hperm.map _).nodup_iff).mpr (hsub.nodup hnd)

/-- The partial-consumption update always stores a nonnegative quantity. -/
theorem matchDisposal_updated_nonneg (ledger : List LedgerRow) (s : SellRow)
    (u : Nat × ℚ × ℚ) (hu : (matchDisposal ledger s).updated = some u) : 0 ≤ u.2.1 := by
  rcases foldl_stepLot_updated_from _ _ u hu with h | ⟨_, _, _, hq⟩
  · cases h
  · exact hq

/-- The updated row belongs to the ledger and is eligible. -/
theorem matchDisposal_updated_src (ledger : List LedgerRow) (s : SellRow)
    (u : Nat × ℚ × ℚ) (hu : (matchDisposal ledger s).updated = some u) :
    ∃ r ∈ ledger, r.id = u.1 ∧ eligb s r = true := by
  rcases foldl_stepLot_updated_from _ _ u hu with h | ⟨r, hr, hid, _⟩
  · cases h
  · have := mem_sortLifo_elig.mp hr
    exact ⟨r, this.1, hid.symm, this.2⟩

/-- With distinct indices, the updated row is not also removed. -/
theorem matchDisposal_updated_not_removed (ledger : List LedgerRow) (s : SellRow)
    (hnd : (ledger.map (fun r => r.id)).Nodup)
    (u : Nat × ℚ × ℚ) (hu : (matchDisposal ledger s).updated = some u) :
    u.1 ∉ (matchDisposal ledger s).removed :=
  foldl_stepLot_updated_not_removed _ _ (sortLifo_ids_nodup hnd)
    (fun r _ => List.not_mem_nil r.id) rfl u hu

/-- A disposal with nonpositive quantity leaves the matcher state at its
seed. -/
theorem matchDisposal_of_nonpos (ledger : List LedgerRow) (s : SellRow)
    (h : ¬ 0 < s.quantity) :
    matchDisposal ledger s = ⟨s.quantity, 0, 0, 0, [], none⟩ :=
  foldl_stepLot_of_nonpos _ _ h

theorem applyUpd_id (upd : Option (Nat × ℚ × ℚ)) (r : LedgerRow) :
    (applyUpd upd r).id = r.id := by
  rcases upd with _ | ⟨i, q, t⟩
  · rfl
  · rw [applyUpd]
    split <;> rfl

theorem applyUpd_cryptocur (upd : Option (Nat × ℚ × ℚ)) (r : LedgerRow) :
    (applyUpd upd r).cryptocur = r.cryptocur := by
  rcases upd with _ | ⟨i, q, t⟩
  · rfl
  · rw [applyUpd]
    split <;> rfl

theorem applyUpd_datetime (upd : Option (Nat × ℚ × ℚ)) (r : LedgerRow) :
    (applyUpd upd r).datetime = r.datetime := by
  rcases upd with _ | ⟨i, q, t⟩
  · rfl
  · rw [applyUpd]
    split <;> rfl

theorem applyMatch_nonneg (ledger : List LedgerRow) (ms : MState)
    (hups : ∀ u, ms.updated = some u → 0 ≤ u.2.1)
    (hq : ∀ r ∈ ledger, 0 ≤ r.quantity) :
    ∀ r' ∈ applyMatch ledger ms, 0 ≤ r'.quantity := by
  intro r' hr'
  rcases List.mem_map.mp hr' with ⟨r, hrf, rfl⟩
  have hr := (List.mem_filter.mp hrf).1
  cases hu : ms.updated with
  | none => exact hq r hr
  | some u =>
    obtain ⟨i, q, t⟩ := u
    rw [applyUpd]
    by_cases hid : r.id = i
    · rw [if_pos hid]
      exact hups (i, q, t) hu
    · rw [if_neg hid]
      exact hq r hr

theorem applySell_nonneg (ledger : List LedgerRow) (s : SellRow)
    (hq : ∀ r ∈ ledger, 0 ≤ r.quantity) :
    ∀ r' ∈ applySell ledger s, 0 ≤ r'.quantity := by
  unfold applySell
  split
  · exact applyMatch_nonneg _ _ (matchDisposal_updated_nonneg ledger s) hq
  · exact hq

theorem foldl_processSell_fst :
    ∀ (sells : List SellRow) (st : List LedgerRow × GainsAcc),
      (sells.foldl processSell st).1 = sells.foldl applySell st.1
  | [], _ => rfl
  | s :: sells, st => by
    rw [List.foldl_cons, List.foldl_cons, foldl_processSell_fst sells (processSell st s),
      processSell_fst]

theorem foldl_applySell_nonneg :
    ∀ (sells : List SellRow) (ledger : List LedgerRow), (∀ r ∈ ledger, 0 ≤ r.quantity) →
      ∀ r' ∈ sells.foldl applySell ledger, 0 ≤ r'.quantity
  | [], _, h => h
  | s :: sells, led, h =>
    foldl_applySell_nonneg sells (applySell led s) (applySell_nonneg led s h)

/-- C1 (amended).  The returned inventory never contains a lot with a
negative remaining quantity, but a lot whose quantity is driven to
exactly zero is not retired: when the partial-consumption branch fires
(in particular when the disposal's remaining quantity exactly equals the
lot's quantity, storing a new quantity of zero), the updated row — with
its nonnegative, possibly zero, quantity — is still present in the
ledger returned for that disposal.  Lots are removed only by the
strict-greater branch. -/
theorem c1_zero_lot_retained (ledger : List LedgerRow) :
    (∀ sells : List SellRow, (∀ r ∈ ledger, 0 ≤ r.quantity) →
      ∀ r' ∈ (get_ledger_after_tax_computation ledger sells).1, 0 ≤ r'.quantity) ∧
    (∀ s : SellRow, (ledger.map (fun r => r.id)).Nodup →
      ∀ u, (matchDisposal ledger s).updated = some u →
        ∃ r' ∈ applySell ledger s, r'.id = u.1 ∧ r'.quantity = u.2.1) := by
  constructor
  · intro sells hq r' hr'
    unfold get_ledger_after_tax_computation at hr'
    simp only at hr'
    rw [foldl_processSell_fst] at hr'
    exact foldl_applySell_nonneg sells ledger hq r' hr'
  · intro s hnd u hu
    have hpos : 0 < s.quantity := by
      by_contra h0
      rw [matchDisposal_of_nonpos ledger s h0] at hu
      cases hu
    rcases matchDisposal_updated_src ledger s u hu with ⟨r, hr, hid, _⟩
    have hnr : u.1 ∉ (matchDisposal ledger s).removed :=
      matchDisposal_updated_not_removed ledger s hnd u hu
    obtain ⟨i, q, t⟩ := u
    refine ⟨applyUpd (some (i, q, t)) r, ?_, ?_, ?_⟩
    · unfold applySell
      rw [if_pos hpos]
      unfold applyMatch
      rw [← hu]
      refine List.mem_map.mpr ⟨r, List.mem_filter.mpr ⟨hr, ?_⟩, rfl⟩
      have hmem : r.id ∉ (matchDisposal ledger s).removed := by
        rw [hid]
        exact hnr
      simpa using hmem
    · rw [applyUpd_id]
      exact hid
    · rw [applyUpd]
      rw [if_pos hid]

/-- Witness for C1's amended statement: the counterexample scenario.  The
disposal of exactly 5 BTC updates lot 0 to quantity zero; the returned
ledger keeps the lot, with quantity 0 (nonnegative). -/
theorem c1_witness :
    (∀ r' ∈ (get_ledger_after_tax_computation [⟨0, "BTC", ⟨2021, 101⟩, 5, 10, 50⟩]
        [⟨"BTC", 12, 60, 5, ⟨2021, 201⟩⟩]).1, 0 ≤ r'.quantity) ∧
    (∃ r' ∈ applySell [⟨0, "BTC", ⟨2021, 101⟩, 5, 10, 50⟩] ⟨"BTC", 12, 60, 5, ⟨2021, 201⟩⟩,
      r'.id = 0 ∧ r'.quantity = 0) := by
  have h := c1_zero_lot_retained [⟨0, "BTC", ⟨2021, 101⟩, 5, 10, 50⟩]
  refine ⟨h.1 [⟨"BTC", 12, 60, 5, ⟨2021, 201⟩⟩] ?_, ?_⟩
  · intro r hr
    rcases List.mem_singleton.mp hr with rfl
    norm_num
  · have h2 := h.2 ⟨"BTC", 12, 60, 5, ⟨2021, 201⟩⟩ (by decide) (0, 0, 0)
      (by
        norm_num [matchDisposal, eligibleRows, eligb, sortLifo, List.insertionSort,
          List.orderedInsert, lifoRel, DT.leb, DT.ltb, stepLot])
    exact h2

/-! ### Year-end price selection (claim C9) -/

theorem dtMax_le_left (a b : DT) : a.leb (dtMax a b) = true := by
  unfold dtMax
  split
  · assumption
  · exact DT.leb_refl a

theorem dtMax_le_right (a b : DT) : b.leb (dtMax a b) = true := by
  unfold dtMax
  split
  · exact DT.leb_refl b
  · rename_i h
    rcases DT.leb_total a b with h1 | h1
    · exact absurd h1 h
    · exact h1

theorem foldl_dtMax_seed : ∀ (ds : List DT) (d : DT), d.leb (ds.foldl dtMax d) = true
  | [], d => DT.leb_refl d
  | e :: ds, d =>
    DT.leb_trans (dtMax_le_left d e) (foldl_dtMax_seed ds (dtMax d e))

theorem foldl_dtMax_ub :
    ∀ (ds : List DT) (d e : DT), e ∈ ds → e.leb (ds.foldl dtMax d) = true
  | x :: ds, d, e, he => by
    rw [List.foldl_cons]
    rcases List.mem_cons.mp he with rfl | he
    · exact DT.leb_trans (dtMax_le_right d e) (foldl_dtMax_seed ds (dtMax d e))
    · exact foldl_dtMax_ub ds (dtMax d x) e he

theorem foldl_dtMax_mem : ∀ (ds : List DT) (d : DT), ds.foldl dtMax d ∈ d :: ds
  | [], d => List.mem_singleton_self d
  | e :: ds, d => by
    rw [List.foldl_cons]
    have h := foldl_dtMax_mem ds (dtMax d e)
    rcases List.mem_cons.mp h with hm | hm
    · rw [hm]
      unfold dtMax
      split
      · exact List.mem_cons_of_mem d (List.mem_cons_self e ds)
      · exact List.mem_cons_self d (e :: ds)
    · exact List.mem_cons_of_mem d (List.mem_cons_of_mem e hm)

theorem maxDT_mem {l : List DT} {m : DT} (h : maxDT l = some m) : m ∈ l := by
  rcases l with _ | ⟨d, ds⟩
  · cases h
  · rw [maxDT, Option.some_inj] at h
    rw [← h]
    exact foldl_dtMax_mem ds d

theorem maxDT_ub {l : List DT} {m : DT} (h : maxDT l = some m) :
    ∀ d ∈ l, d.leb m = true := by
  rcases l with _ | ⟨d, ds⟩
  · cases h
  · rw [maxDT, Option.some_inj] at h
    intro e he
    rw [← h]
    rcases List.mem_cons.mp he with rfl | he
    · exact foldl_dtMax_seed ds e
    · exact foldl_dtMax_ub ds d e he

theorem maxDT_eq_none {l : List DT} : maxDT l = none ↔ l = [] := by
  rcases l with _ | ⟨d, ds⟩
  · simp [maxDT]
  · simp [maxDT]

theorem lookupPrice_of_exact {ohlc : List PRow} {asset : String} {yEnd : DT} {p : PRow}
    (h : ohlc.find? (fun p => p.date == yEnd && p.crypto == asset) = some p) :
    lookupPrice ohlc asset yEnd = ⟨p.price, false⟩ := by
  unfold lookupPrice
  rw [h]

theorem lookupPrice_of_fallback {ohlc : List PRow} {asset : String} {yEnd : DT} {m : DT}
    {p : PRow}
    (h1 : ohlc.find? (fun p => p.date == yEnd && p.crypto == asset) = none)
    (h2 : maxDT (((ohlc.filter (fun p => p.crypto == asset)).map (fun p => p.date)).filter
        (fun d => d.leb yEnd)) = some m)
    (h3 : (ohlc.filter (fun p => p.crypto == asset)).find? (fun p => p.date == m) = some p) :
    lookupPrice ohlc asset yEnd = ⟨p.price, false⟩ := by
  unfold lookupPrice
  simp only [h1, h2, h3]

theorem lookupPrice_of_missing {ohlc : List PRow} {asset : String} {yEnd : DT}
    (h1 : ohlc.find? (fun p => p.date == yEnd && p.crypto == asset) = none)
    (h2 : maxDT (((ohlc.filter (fun p => p.crypto == asset)).map (fun p => p.date)).filter
        (fun d => d.leb yEnd)) = none) :
    lookupPrice ohlc asset yEnd = ⟨0, true⟩ := by
  unfold lookupPrice
  simp only [h1, h2]

/-- C9.  Price selection for a non-reference asset at a year end, for a
price series with one price per (date, asset) key: if the series has a
price for the asset at exactly the year-end date, that price is used; if
not, the price at the most recent date on or before the year end among
the asset's rows is used; and if the asset has no price on or before
that date at all, the result is price 0 with a surfaced warning — the
lookup is a total function, never a fatal error. -/
theorem c9_price_fallback (ohlc : List PRow) (asset : String) (yEnd : DT)
    (hkeys : (ohlc.map (fun p => (p.date, p.crypto))).Nodup) :
    (∀ p ∈ ohlc, p.crypto = asset → p.date = yEnd →
        lookupPrice ohlc asset yEnd = ⟨p.price, false⟩) ∧
    ((¬ ∃ p, p ∈ ohlc ∧ p.crypto = asset ∧ p.date = yEnd) →
      ∀ best ∈ ohlc, best.crypto = asset → best.date.leb yEnd = true →
        (∀ q ∈ ohlc, q.crypto = asset → q.date.leb yEnd = true →
          q.date.leb best.date = true) →
        lookupPrice ohlc asset yEnd = ⟨best.price, false⟩) ∧
    ((∀ p ∈ ohlc, p.crypto = asset → p.date.leb yEnd = false) →
      lookupPrice ohlc asset yEnd = ⟨0, true⟩) := by
  refine ⟨?_, ?_, ?_⟩
  · intro p hp hc hd
    cases hfind : ohlc.find? (fun q => q.date == yEnd && q.crypto == asset) with
    | none =>
      exfalso
      have := List.find?_eq_none.mp hfind p hp
      simp [hd, hc] at this
    | some p' =>
      have hpred := List.find?_some hfind
      simp only [Bool.and_eq_true, beq_iff_eq] at hpred
      have hp' := List.mem_of_find?_eq_some hfind
      have hpp : p' = p :=
        List.inj_on_of_nodup_map hkeys hp' hp (by rw [hpred.1, hpred.2, hd, hc])
      rw [lookupPrice_of_exact hfind, hpp]
  · intro hnoex best hbest hcb hdle hdom
    have hfind : ohlc.find? (fun p => p.date == yEnd && p.crypto == asset) = none := by
      rw [List.find?_eq_none]
      intro q hq
      simp only [Bool.and_eq_true, beq_iff_eq, not_and]
      intro hd hc
      exact hnoex ⟨q, hq, hc, hd⟩
    have hbestAD : best ∈ ohlc.filter (fun p => p.crypto == asset) :=
      List.mem_filter.mpr ⟨hbest, by simp [hcb]⟩
    have hbd : best.date ∈ ((ohlc.filter (fun p => p.crypto == asset)).map
        (fun p => p.date)).filter (fun d => d.leb yEnd) :=
      List.mem_filter.mpr ⟨List.mem_map.mpr ⟨best, hbestAD, rfl⟩, hdle⟩
    cases hmax : maxDT (((ohlc.filter (fun p => p.crypto == asset)).map
        (fun p => p.date)).filter (fun d => d.leb yEnd)) with
    | none =>
      exfalso
      rw [maxDT_eq_none] at hmax
      rw [hmax] at hbd
      cases hbd
    | some m =>
      have hm_mem := maxDT_mem hmax
      have hm1 := List.mem_filter.mp hm_mem
      rcases List.mem_map.mp hm1.1 with ⟨q, hqAD, hqd⟩
      have hqo : q ∈ ohlc := (List.mem_filter.mp hqAD).1
      have hqc : q.crypto = asset := by
        have := (List.mem_filter.mp hqAD).2
        simpa using this
      have h1 : m.leb best.date = true := by
        rw [← hqd]
        exact hdom q hqo hqc (by rw [hqd]; exact hm1.2)
      have h2 : best.date.leb m = true := maxDT_ub hmax best.date hbd
      have hmbd : m = best.date := DT.leb_antisymm h1 h2
      cases hf2 : (ohlc.filter (fun p => p.crypto == asset)).find?
          (fun p => p.date == m) with
      | none =>
        exfalso
        have := List.find?_eq_none.mp hf2 best hbestAD
        simp [hmbd] at this
      | some p2 =>
        have hpred := List.find?_some hf2
        simp only [beq_iff_eq] at hpred
        have hp2AD := List.mem_of_find?_eq_some hf2
        have hp2o : p2 ∈ ohlc := (List.mem_filter.mp hp2AD).1
        have hp2c : p2.crypto = asset := by
          have := (List.mem_filter.mp hp2AD).2
          simpa using this
        have hp2best : p2 = best :=
          List.inj_on_of_nodup_map hkeys hp2o hbest
            (by rw [hpred, hmbd, hp2c, hcb])
        rw [lookupPrice_of_fallback hfind hmax hf2, hp2best]
  · intro hnone
    have hfind : ohlc.find? (fun p => p.date == yEnd && p.crypto == asset) = none := by
      rw [List.find?_eq_none]
      intro q hq
      simp only [Bool.and_eq_true, beq_iff_eq, not_and]
      intro hd hc
      have := hnone q hq hc
      rw [hd] at this
      rw [DT.leb_refl] at this
      cases this
    have hmax : maxDT (((ohlc.filter (fun p => p.crypto == asset)).map
        (fun p => p.date)).filter (fun d => d.leb yEnd)) = none := by
      rw [maxDT_eq_none]
      rw [List.filter_eq_nil_iff]
      intro d hd
      rcases List.mem_map.mp hd with ⟨q, hqAD, hqd⟩
      have hqo : q ∈ ohlc := (List.mem_filter.mp hqAD).1
      have hqc : q.crypto = asset := by
        have := (List.mem_filter.mp hqAD).2
        simpa using this
      rw [← hqd]
      simp [hnone q hqo hqc]
    exact lookupPrice_of_missing hfind hmax

/-- Witness for C9: a two-row series for asset XRP.  At year-end 2022
(which has an exact entry) the exact price 3 is used; at year-end 2023
(no exact entry) the most recent earlier price is used; for asset ABC
(no data at all) the result is price 0 with a warning. -/
theorem c9_witness :
    lookupPrice [⟨⟨2022, 12310000⟩, "XRP", 3⟩, ⟨⟨2022, 12290000⟩, "XRP", 5⟩]
        "XRP" ⟨2022, 12310000⟩ = ⟨3, false⟩ ∧
    lookupPrice [⟨⟨2022, 12310000⟩, "XRP", 3⟩, ⟨⟨2022, 12290000⟩, "XRP", 5⟩]
        "XRP" ⟨2023, 12310000⟩ = ⟨3, false⟩ ∧
    lookupPrice [⟨⟨2022, 12310000⟩, "XRP", 3⟩, ⟨⟨2022, 12290000⟩, "XRP", 5⟩]
        "ABC" ⟨2022, 12310000⟩ = ⟨0, true⟩ := by
  refine ⟨?_, ?_, ?_⟩
  · exact (c9_price_fallback _ "XRP" ⟨2022, 12310000⟩ (by decide)).1
      ⟨⟨2022, 12310000⟩, "XRP", 3⟩ (List.mem_cons_self _ _) rfl rfl
  · exact (c9_price_fallback _ "XRP" ⟨2023, 12310000⟩ (by decide)).2.1
      (by
        rintro ⟨p, hp, hc, hd⟩
        rcases List.mem_cons.mp hp with rfl | hp
        · cases hd
        · rcases List.mem_singleton.mp hp with rfl
          cases hd)
      ⟨⟨2022, 12310000⟩, "XRP", 3⟩ (List.mem_cons_self _ _) rfl (by decide)
      (by
        intro q hq hc hle
        rcases List.mem_cons.mp hq with rfl | hq
        · decide
        · rcases List.mem_singleton.mp hq with rfl
          decide)
  · exact (c9_price_fallback _ "ABC" ⟨2022, 12310000⟩ (by decide)).2.2
      (by
        intro p hp hc
        rcases List.mem_cons.mp hp with rfl | hp
        · exact absurd hc (by decide)
        · rcases List.mem_singleton.mp hp with rfl
          exact absurd hc (by decide))

/-! ### Year-end valuation return value (claim C8) -/

/-- Counterexample to C8 as stated: a ledger spanning years 2021 and 2022
(one unit of AAA bought in 2021, sold in 2022).  Year 2021 has a
nonempty summary (AAA valued at the exact year-end price 10, grand total
10), yet the entry point returns the empty list — the 2022 summary, the
only thing left in `year_summary` after the loop.  The per-year tables
and the grand totals are printed, not returned. -/
theorem c8_counterexample :
    calculate_year_end_balances
        [⟨⟨2021, 600⟩, "AAA", 1⟩, ⟨⟨2022, 600⟩, "AAA", -1⟩]
        [⟨⟨2021, 12310000⟩, "AAA", 10⟩] "ZEUR" ["KFEE", "NFT"] = [] ∧
    yearsOf [⟨⟨2021, 600⟩, "AAA", 1⟩, ⟨⟨2022, 600⟩, "AAA", -1⟩] = [2021, 2022] ∧
    (yearSummaryFor [⟨⟨2021, 600⟩, "AAA", 1⟩, ⟨⟨2022, 600⟩, "AAA", -1⟩]
        [⟨⟨2021, 12310000⟩, "AAA", 10⟩] "ZEUR" ["KFEE", "NFT"] 2021).1
      = [⟨"AAA", 1, 10, 10⟩] ∧
    (yearSummaryFor [⟨⟨2021, 600⟩, "AAA", 1⟩, ⟨⟨2022, 600⟩, "AAA", -1⟩]
        [⟨⟨2021, 12310000⟩, "AAA", 10⟩] "ZEUR" ["KFEE", "NFT"] 2021).2 = 10 := by
  refine ⟨?_, ?_, ?_, ?_⟩ <;>
    norm_num [calculate_year_end_balances, yearsOf, List.insertionSort, List.orderedInsert,
      yearSummaryFor, balancesUntil, upsertBal, yearEndDT, dec31code, DT.leb, yEntryFor,
      lookupPrice, maxDT, dtMax, List.dedup, List.pwFilter, assetLeRel,
      List.filterMap_cons, List.filterMap_nil] <;> simp

theorem foldl_const_last {α β : Type} (f : α → β) :
    ∀ (l : List α) (init : β) (h : l ≠ []),
      l.foldl (fun _ y => f y) init = f (l.getLast h)
  | [a], _, _ => rfl
  | a :: b :: l, init, _ => by
    rw [List.foldl_cons]
    rw [foldl_const_last f (b :: l) (f a) (by simp)]
    rw [List.getLast_cons (by simp : b :: l ≠ [])]

theorem sorted_le_getLast :
    ∀ (l : List Int), List.Sorted (fun a b : Int => a ≤ b) l →
      ∀ a ∈ l, ∀ (h : l ≠ []), a ≤ l.getLast h
  | [x], _, a, ha, _ => by
    rcases List.mem_singleton.mp ha with rfl
    rfl
  | x :: y :: l, hs, a, ha, _ => by
    rw [List.getLast_cons (by simp : y :: l ≠ [])]
    rcases List.mem_cons.mp ha with rfl | ha
    · exact (List.sorted_cons.mp hs).1 _ (List.getLast_mem _)
    · exact sorted_le_getLast (y :: l) (List.sorted_cons.mp hs).2 a ha (by simp)

theorem yearsOf_ne_nil {ledger : List VRow} (h : ledger ≠ []) : yearsOf ledger ≠ [] := by
  unfold yearsOf
  intro hcontra
  have hperm := List.perm_insertionSort (fun a b : Int => a ≤ b)
    ((ledger.map (fun r => r.date.year)).dedup)
  rw [hcontra] at hperm
  have hd : (ledger.map (fun r => r.date.year)).dedup = [] := hperm.symm.eq_nil
  rw [List.dedup_eq_nil] at hd
  rcases ledger with _ | ⟨r, rest⟩
  · exact h rfl
  · cases hd

/-- C8 (amended).  The year-end valuation entry point computes and prints
one asset-ordered table plus a grand total for each year of the ledger,
but its return value is only the final iteration's `year_summary`: the
entry list of the latest year present, sorted by asset name, with no
totals and nothing for the earlier years. -/
theorem c8_returns_last_year (ledger : List VRow) (ohlc : List PRow) (refAsset : String)
    (exceptions : List String) (hne : ledger ≠ []) :
    ∃ y, y ∈ yearsOf ledger ∧ (∀ y' ∈ yearsOf ledger, y' ≤ y) ∧
      calculate_year_end_balances ledger ohlc refAsset exceptions
        = (yearSummaryFor ledger ohlc refAsset exceptions y).1 ∧
      List.Sorted assetLeRel (calculate_year_end_balances ledger ohlc refAsset exceptions) := by
  have hyne := yearsOf_ne_nil hne
  refine ⟨(yearsOf ledger).getLast hyne, List.getLast_mem hyne, ?_, ?_, ?_⟩
  · intro y' hy'
    exact sorted_le_getLast (yearsOf ledger)
      (List.sorted_insertionSort (fun a b : Int => a ≤ b) _) y' hy' hyne
  · unfold calculate_year_end_balances
    exact foldl_const_last (fun y => (yearSummaryFor ledger ohlc refAsset exceptions y).1)
      (yearsOf ledger) [] hyne
  · unfold calculate_year_end_balances
    rw [foldl_const_last (fun y => (yearSummaryFor ledger ohlc refAsset exceptions y).1)
      (yearsOf ledger) [] hyne]
    unfold yearSummaryFor
    exact List.sorted_insertionSort assetLeRel _

/-- Witness for C8's amended statement at the counterexample input. -/
theorem c8_witness :
    ∃ y, y ∈ yearsOf [⟨⟨2021, 600⟩, "AAA", 1⟩, ⟨⟨2022, 600⟩, "AAA", -1⟩] ∧
      (∀ y' ∈ yearsOf [⟨⟨2021, 600⟩, "AAA", 1⟩, ⟨⟨2022, 600⟩, "AAA", -1⟩], y' ≤ y) ∧
      calculate_year_end_balances [⟨⟨2021, 600⟩, "AAA", 1⟩, ⟨⟨2022, 600⟩, "AAA", -1⟩]
          [⟨⟨2021, 12310000⟩, "AAA", 10⟩] "ZEUR" ["KFEE", "NFT"]
        = (yearSummaryFor [⟨⟨2021, 600⟩, "AAA", 1⟩, ⟨⟨2022, 600⟩, "AAA", -1⟩]
            [⟨⟨2021, 12310000⟩, "AAA", 10⟩] "ZEUR" ["KFEE", "NFT"] y).1 ∧
      List.Sorted assetLeRel
        (calculate_year_end_balances [⟨⟨2021, 600⟩, "AAA", 1⟩, ⟨⟨2022, 600⟩, "AAA", -1⟩]
          [⟨⟨2021, 12310000⟩, "AAA", 10⟩] "ZEUR" ["KFEE", "NFT"]) :=
  c8_returns_last_year _ _ "ZEUR" ["KFEE", "NFT"] (by decide)

/-! ### Eligibility and LIFO consumption order (claim C3) -/

theorem DT.not_leb_of_ltb {a b : DT} (h : a.ltb b = true) : b.leb a = false := by
  cases hc : b.leb a
  · rfl
  · rw [DT.ltb_iff] at h
    rw [DT.leb_iff] at hc
    omega

theorem stepLot_removed_from {p : ℚ} {s : MState} {r : LedgerRow} {x : Nat}
    (h : x ∈ (stepLot p s r).removed) : x ∈ s.removed ∨ x = r.id := by
  unfold stepLot at h
  split at h
  · split at h
    · rcases List.mem_cons.mp h with h | h
      · exact Or.inr h
      · exact Or.inl h
    · exact Or.inl h
  · exact Or.inl h

theorem stepLot_updated_from {p : ℚ} {s : MState} {r : LedgerRow} {u : Nat × ℚ × ℚ}
    (h : (stepLot p s r).updated = some u) : s.updated = some u ∨ u.1 = r.id := by
  unfold stepLot at h
  split at h
  · split at h
    · exact Or.inl h
    · rw [Option.some_inj] at h
      rw [← h]
      exact Or.inr rfl
  · exact Or.inl h

/-- In a LIFO-sorted list, a strictly more recent row `i` appears before
a strictly older row `j`: the list splits as `l₁ ++ i :: l₂` with
`j ∈ l₂`. -/
theorem sorted_split_lifo :
    ∀ {l : List LedgerRow} {i j : LedgerRow}, List.Sorted lifoRel l →
      i ∈ l → j ∈ l → i ≠ j → ¬ lifoRel j i →
      ∃ l₁ l₂, l = l₁ ++ i :: l₂ ∧ j ∈ l₂ := by
  intro l
  induction l with
  | nil => intro i j _ hi; cases hi
  | cons x xs ih =>
    intro i j hs hi hj hij hnr
    have hs' := List.sorted_cons.mp hs
    by_cases hxi : x = i
    · subst hxi
      have hjxs : j ∈ xs := by
        rcases List.mem_cons.mp hj with rfl | h
        · exact absurd rfl hij
        · exact h
      exact ⟨[], xs, rfl, hjxs⟩
    · have hi' : i ∈ xs := by
        rcases List.mem_cons.mp hi with rfl | h
        · exact absurd rfl hxi
        · exact h
      have hjx : j ≠ x := by
        rintro rfl
        exact hnr (hs'.1 i hi')
      have hj' : j ∈ xs := by
        rcases List.mem_cons.mp hj with rfl | h
        · exact absurd rfl hjx
        · exact h
      rcases ih hs'.2 hi' hj' hij hnr with ⟨l₁, l₂, heq, hjl₂⟩
      exact ⟨x :: l₁, l₂, by rw [List.cons_append, heq], hjl₂⟩

/-- Core LIFO argument: starting from any state whose bookkeeping does
not yet mention row `j`, if the loop processes row `i` and afterwards
(somewhere in the remaining rows `l₂`) touches `j` — removes it or
stores an update for it — then `i` was consumed whole by the
strict-greater branch, i.e. `i` is in the removed set. -/
theorem lifo_core (p : ℚ) (l₂ : List LedgerRow) (i j : LedgerRow) (s1 : MState)
    (hjr : j.id ∉ s1.removed) (hji : j.id ≠ i.id)
    (hju : ∀ u, s1.updated = some u → u.1 ≠ j.id)
    (htouch : j.id ∈ (l₂.foldl (stepLot p) (stepLot p s1 i)).removed ∨
      (∃ u, (l₂.foldl (stepLot p) (stepLot p s1 i)).updated = some u ∧ u.1 = j.id)) :
    i.id ∈ (l₂.foldl (stepLot p) (stepLot p s1 i)).removed := by
  by_cases h2pos : 0 < (stepLot p s1 i).remaining
  · by_cases h1pos : 0 < s1.remaining
    · by_cases hqlt : i.quantity < s1.remaining
      · refine foldl_stepLot_removed_sub l₂ _ ?_
        unfold stepLot
        rw [if_pos h1pos, if_pos hqlt]
        exact List.mem_cons_self _ _
      · exfalso
        have hz : (stepLot p s1 i).remaining = 0 := by
          unfold stepLot
          rw [if_pos h1pos, if_neg hqlt]
        rw [hz] at h2pos
        exact lt_irrefl 0 h2pos
    · exfalso
      rw [stepLot_of_nonpos i h1pos] at h2pos
      exact h1pos h2pos
  · exfalso
    rw [foldl_stepLot_of_nonpos l₂ _ h2pos] at htouch
    rcases htouch with h | ⟨u, hu, hux⟩
    · rcases stepLot_removed_from h with h | h
      · exact hjr h
      · exact hji h
    · rcases stepLot_updated_from hu with h | h
      · exact hju u h hux
      · exact hji (by rw [← hux, h])

/-- C3.  For every disposal, the matcher touches only lots of the same
asset acquired strictly before the disposal timestamp; and it consumes
them in LIFO order: if two eligible lots `j` (older) and `i` (strictly
more recent) are both in the ledger and any unit of `j` is consumed
(`j` removed or updated), then `i` has been fully consumed (removed)
by that disposal. -/
theorem c3_lifo_order (ledger : List LedgerRow) (s : SellRow)
    (hnd : (ledger.map (fun r => r.id)).Nodup) :
    (∀ x : Nat, (x ∈ (matchDisposal ledger s).removed ∨
        (∃ u, (matchDisposal ledger s).updated = some u ∧ u.1 = x)) →
      ∃ r ∈ ledger, r.id = x ∧ r.cryptocur = s.asset ∧ r.datetime.ltb s.datetime = true) ∧
    (∀ i j : LedgerRow, i ∈ ledger → j ∈ ledger →
      eligb s i = true → eligb s j = true → j.datetime.ltb i.datetime = true →
      (j.id ∈ (matchDisposal ledger s).removed ∨
        (∃ u, (matchDisposal ledger s).updated = some u ∧ u.1 = j.id)) →
      i.id ∈ (matchDisposal ledger s).removed) := by
  constructor
  · intro x hx
    have hsrc : ∃ r ∈ sortLifo (eligibleRows ledger s), r.id = x := by
      rcases hx with hx | ⟨u, hu, hux⟩
      · rcases foldl_stepLot_removed_from _ _ x hx with h | h
        · cases h
        · exact h
      · rcases foldl_stepLot_updated_from _ _ u hu with h | ⟨r, hr, hid, _⟩
        · cases h
        · exact ⟨r, hr, by rw [← hid, hux]⟩
    rcases hsrc with ⟨r, hr, hid⟩
    have hre := mem_sortLifo_elig.mp hr
    have he := hre.2
    rw [eligb, Bool.and_eq_true] at he
    exact ⟨r, hre.1, hid, beq_iff_eq.mp he.1, he.2⟩
  · intro i j hi hj hei hej hji htouched
    have hineq : i ≠ j := by
      rintro rfl
      rw [DT.not_ltb_self] at hji
      cases hji
    have hiL : i ∈ sortLifo (eligibleRows ledger s) := mem_sortLifo_elig.mpr ⟨hi, hei⟩
    have hjL : j ∈ sortLifo (eligibleRows ledger s) := mem_sortLifo_elig.mpr ⟨hj, hej⟩
    have hsorted : List.Sorted lifoRel (sortLifo (eligibleRows ledger s)) :=
      List.sorted_insertionSort lifoRel _
    have hnr : ¬ lifoRel j i := by
      unfold lifoRel
      rw [DT.not_leb_of_ltb hji]
      simp
    rcases sorted_split_lifo hsorted hiL hjL hineq hnr with ⟨l₁, l₂, heq, hjl₂⟩
    have hndl := @sortLifo_ids_nodup ledger s hnd
    rw [heq, List.map_append, List.map_cons] at hndl
    have hnda := List.nodup_append.mp hndl
    have hjid_l2 : j.id ∈ l₂.map (fun r => r.id) := List.mem_map.mpr ⟨j, hjl₂, rfl⟩
    have hjid_ne_i : j.id ≠ i.id := by
      intro hcon
      exact (List.nodup_cons.mp hnda.2.1).1 (hcon ▸ hjid_l2)
    have hjid_not_l1 : j.id ∉ l₁.map (fun r => r.id) := by
      intro hcon
      exact hnda.2.2 hcon (List.mem_cons_of_mem _ hjid_l2)
    have key : matchDisposal ledger s = l₂.foldl (stepLot s.price)
        (stepLot s.price
          (l₁.foldl (stepLot s.price) ⟨s.quantity, 0, 0, 0, [], none⟩) i) := by
      unfold matchDisposal
      rw [heq, List.foldl_append, List.foldl_cons]
    rw [key] at htouched ⊢
    refine lifo_core s.price l₂ i j _ ?_ hjid_ne_i ?_ htouched
    · intro hcon
      rcases foldl_stepLot_removed_from l₁ _ j.id hcon with h | ⟨r, hr, hid⟩
      · cases h
      · exact hjid_not_l1 (List.mem_map.mpr ⟨r, hr, hid⟩)
    · intro u hu hcon
      rcases foldl_stepLot_updated_from l₁ _ u hu with h | ⟨r, hr, hid, _⟩
      · cases h
      · exact hjid_not_l1 (List.mem_map.mpr ⟨r, hr, by rw [← hid, hcon]⟩)

/-- Witness for C3: in the spec's example scenario the older lot (id 0,
June-acquired lot id 1 being more recent) is touched by the partial
branch, and the theorem yields that the more recent lot id 1 was fully
consumed; the eligibility part confirms lot 1 is a same-asset,
strictly-earlier acquisition. -/
theorem c3_witness :
    (∃ r ∈ [(⟨0, "A", ⟨2021, 101⟩, 1, 100, 100⟩ : LedgerRow),
        ⟨1, "A", ⟨2021, 601⟩, 1, 200, 200⟩],
      r.id = 1 ∧ r.cryptocur = "A" ∧ r.datetime.ltb ⟨2021, 1201⟩ = true) ∧
    (1 : Nat) ∈ (matchDisposal
      [⟨0, "A", ⟨2021, 101⟩, 1, 100, 100⟩, ⟨1, "A", ⟨2021, 601⟩, 1, 200, 200⟩]
      ⟨"A", 300, 450, 3/2, ⟨2021, 1201⟩⟩).removed := by
  have h := c3_lifo_order
    [⟨0, "A", ⟨2021, 101⟩, 1, 100, 100⟩, ⟨1, "A", ⟨2021, 601⟩, 1, 200, 200⟩]
    ⟨"A", 300, 450, 3/2, ⟨2021, 1201⟩⟩ (by decide)
  have hupd : (matchDisposal
      [⟨0, "A", ⟨2021, 101⟩, 1, 100, 100⟩, ⟨1, "A", ⟨2021, 601⟩, 1, 200, 200⟩]
      ⟨"A", 300, 450, 3/2, ⟨2021, 1201⟩⟩).updated = some (0, 1/2, 50) := by
    norm_num [matchDisposal, eligibleRows, eligb, sortLifo, List.insertionSort,
      List.orderedInsert, lifoRel, DT.leb, DT.ltb, stepLot]
  have hmem2 : (⟨1, "A", ⟨2021, 601⟩, 1, 200, 200⟩ : LedgerRow) ∈
      [(⟨0, "A", ⟨2021, 101⟩, 1, 100, 100⟩ : LedgerRow),
        ⟨1, "A", ⟨2021, 601⟩, 1, 200, 200⟩] :=
    List.mem_cons_of_mem _ (List.mem_singleton_self _)
  have hmem1 : (⟨0, "A", ⟨2021, 101⟩, 1, 100, 100⟩ : LedgerRow) ∈
      [(⟨0, "A", ⟨2021, 101⟩, 1, 100, 100⟩ : LedgerRow),
        ⟨1, "A", ⟨2021, 601⟩, 1, 200, 200⟩] :=
    List.mem_cons_self _ _
  have hlifo := h.2 ⟨1, "A", ⟨2021, 601⟩, 1, 200, 200⟩ ⟨0, "A", ⟨2021, 101⟩, 1, 100, 100⟩
    hmem2 hmem1 (by decide) (by decide) (by decide)
    (Or.inr ⟨(0, 1/2, 50), hupd, rfl⟩)
  exact ⟨h.1 1 (Or.inl hlifo), hlifo⟩

/-! ### Over-sized disposals are silently truncated (claim C5) -/

theorem foldl_stepLot_consume_all (p : ℚ) :
    ∀ (l : List LedgerRow) (s : MState),
      (∀ r ∈ l, 0 ≤ r.quantity) →
      (l.map (fun r => r.quantity)).sum < s.remaining →
      (∀ r ∈ l, r.id ∈ (l.foldl (stepLot p) s).removed) ∧
      (l.foldl (stepLot p) s).remaining
        = s.remaining - (l.map (fun r => r.quantity)).sum ∧
      (l.foldl (stepLot p) s).updated = s.updated ∧
      (l.foldl (stepLot p) s).final_value
        = s.final_value + (l.map (fun r => r.quantity)).sum * p ∧
      (l.foldl (stepLot p) s).initial_value
        = s.initial_value + (l.map (fun r => r.total)).sum ∧
      (l.foldl (stepLot p) s).gain
        = s.gain + (l.map (fun r => r.quantity)).sum * p - (l.map (fun r => r.total)).sum
  | [], s, _, _ => by
    refine ⟨fun r hr => absurd hr (List.not_mem_nil r), ?_, rfl, ?_, ?_, ?_⟩ <;> simp
  | lot :: l, s, hq, hlt => by
    rw [List.map_cons, List.sum_cons] at hlt
    have hrest0 : 0 ≤ (l.map (fun r => r.quantity)).sum :=
      List.sum_nonneg (by
        intro x hx
        rcases List.mem_map.mp hx with ⟨r, hr, rfl⟩
        exact hq r (List.mem_cons_of_mem lot hr))
    have hlot0 : 0 ≤ lot.quantity := hq lot (List.mem_cons_self lot l)
    have h0 : 0 < s.remaining := by linarith
    have hqlt : lot.quantity < s.remaining := by linarith
    have hstep : stepLot p s lot =
        { remaining := s.remaining - lot.quantity
          gain := s.gain + lot.quantity * p - lot.total
          initial_value := s.initial_value + lot.total
          final_value := s.final_value + lot.quantity * p
          removed := lot.id :: s.removed
          updated := s.updated } := by
      unfold stepLot
      rw [if_pos h0, if_pos hqlt]
    have ih := foldl_stepLot_consume_all p l
      (stepLot p s lot)
      (fun r hr => hq r (List.mem_cons_of_mem lot hr))
      (by rw [hstep]; simp only; linarith)
    rw [List.foldl_cons]
    refine ⟨?_, ?_, ?_, ?_, ?_, ?_⟩
    · intro r hr
      rcases List.mem_cons.mp hr with rfl | hr
      · refine foldl_stepLot_removed_sub l (stepLot p s r) ?_
        rw [hstep]
        exact List.mem_cons_self _ _
      · exact ih.1 r hr
    · rw [ih.2.1, hstep]
      simp only [List.map_cons, List.sum_cons]
      ring
    · rw [ih.2.2.1, hstep]
    · rw [ih.2.2.2.1, hstep]
      simp only [List.map_cons, List.sum_cons]
      ring
    · rw [ih.2.2.2.2.1, hstep]
      simp only [List.map_cons, List.sum_cons]
      ring
    · rw [ih.2.2.2.2.2, hstep]
      simp only [List.map_cons, List.sum_cons]
      ring

theorem eligb_applyUpd (s : SellRow) (upd : Option (Nat × ℚ × ℚ)) (r : LedgerRow) :
    eligb s (applyUpd upd r) = eligb s r := by
  unfold eligb
  rw [applyUpd_cryptocur, applyUpd_datetime]

theorem eligibleTotal_nonneg (ledger : List LedgerRow) (s : SellRow)
    (hq : ∀ r ∈ ledger, 0 ≤ r.quantity) : 0 ≤ eligibleTotal ledger s :=
  List.sum_nonneg (by
    intro x hx
    rcases List.mem_map.mp hx with ⟨r, hr, rfl⟩
    exact hq r (List.mem_filter.mp hr).1)

/-- C5.  When a disposal's quantity exceeds the total quantity of its
eligible lots (all lot quantities being nonnegative, as produced by
`compute_taxes`), the matcher consumes every eligible lot whole, silently
drops the unmatched excess (`remaining = quantity - eligible total`,
with no error — the function is total), leaves no eligible lot in the
returned ledger, and produces gain figures covering only the matched
portion: proceeds `eligible total * price`, cost basis the sum of the
eligible lots' totals, gain their difference. -/
theorem c5_insufficient_inventory (ledger : List LedgerRow) (s : SellRow)
    (hq : ∀ r ∈ ledger, 0 ≤ r.quantity)
    (hex : eligibleTotal ledger s < s.quantity) :
    (matchDisposal ledger s).remaining = s.quantity - eligibleTotal ledger s ∧
    (∀ r' ∈ applySell ledger s, eligb s r' = false) ∧
    (matchDisposal ledger s).final_value = eligibleTotal ledger s * s.price ∧
    (matchDisposal ledger s).initial_value = eligibleCostTotal ledger s ∧
    (matchDisposal ledger s).gain
      = eligibleTotal ledger s * s.price - eligibleCostTotal ledger s := by
  have hperm : List.Perm (sortLifo (eligibleRows ledger s)) (eligibleRows ledger s) :=
    List.perm_insertionSort _ _
  have hqsum : ((sortLifo (eligibleRows ledger s)).map (fun r => r.quantity)).sum
      = eligibleTotal ledger s := (hperm.map _).sum_eq
  have htsum : ((sortLifo (eligibleRows ledger s)).map (fun r => r.total)).sum
      = eligibleCostTotal ledger s := (hperm.map _).sum_eq
  have hall := foldl_stepLot_consume_all s.price
    (sortLifo (eligibleRows ledger s)) ⟨s.quantity, 0, 0, 0, [], none⟩
    (fun r hr => hq r (mem_sortLifo_elig.mp hr).1)
    (by rw [hqsum]; exact hex)
  have hqpos : 0 < s.quantity :=
    lt_of_le_of_lt (eligibleTotal_nonneg ledger s hq) hex
  refine ⟨?_, ?_, ?_, ?_, ?_⟩
  · rw [matchDisposal, hall.2.1, hqsum]
  · intro r' hr'
    unfold applySell at hr'
    rw [if_pos hqpos] at hr'
    rcases List.mem_map.mp hr' with ⟨r0, hrf, rfl⟩
    have hr0 := List.mem_filter.mp hrf
    rw [eligb_applyUpd]
    cases helig : eligb s r0 with
    | false => rfl
    | true =>
      exfalso
      have hr0elig : r0 ∈ sortLifo (eligibleRows ledger s) :=
        mem_sortLifo_elig.mpr ⟨hr0.1, helig⟩
      have hrem : r0.id ∈ (matchDisposal ledger s).removed := hall.1 r0 hr0elig
      have hnotin : r0.id ∉ (matchDisposal ledger s).removed := by
        have := hr0.2
        simpa using this
      exact hnotin hrem
  · rw [matchDisposal, hall.2.2.2.1, hqsum]
    norm_num
  · rw [matchDisposal, hall.2.2.2.2.1, htsum]
    norm_num
  · rw [matchDisposal, hall.2.2.2.2.2, hqsum, htsum]
    norm_num

/-- Witness for C5: one 5-BTC lot against an 8-BTC disposal at price 12:
3 units are silently dropped, no eligible lot survives, proceeds are
5 * 12 and cost basis 50. -/
theorem c5_witness :
    (matchDisposal [⟨0, "BTC", ⟨2021, 101⟩, 5, 10, 50⟩]
        ⟨"BTC", 12, 96, 8, ⟨2021, 201⟩⟩).remaining
      = 8 - eligibleTotal [⟨0, "BTC", ⟨2021, 101⟩, 5, 10, 50⟩]
          ⟨"BTC", 12, 96, 8, ⟨2021, 201⟩⟩ ∧
    (∀ r' ∈ applySell [⟨0, "BTC", ⟨2021, 101⟩, 5, 10, 50⟩]
        ⟨"BTC", 12, 96, 8, ⟨2021, 201⟩⟩,
      eligb ⟨"BTC", 12, 96, 8, ⟨2021, 201⟩⟩ r' = false) ∧
    (matchDisposal [⟨0, "BTC", ⟨2021, 101⟩, 5, 10, 50⟩]
        ⟨"BTC", 12, 96, 8, ⟨2021, 201⟩⟩).final_value
      = eligibleTotal [⟨0, "BTC", ⟨2021, 101⟩, 5, 10, 50⟩]
          ⟨"BTC", 12, 96, 8, ⟨2021, 201⟩⟩ * 12 ∧
    (matchDisposal [⟨0, "BTC", ⟨2021, 101⟩, 5, 10, 50⟩]
        ⟨"BTC", 12, 96, 8, ⟨2021, 201⟩⟩).initial_value
      = eligibleCostTotal [⟨0, "BTC", ⟨2021, 101⟩, 5, 10, 50⟩]
          ⟨"BTC", 12, 96, 8, ⟨2021, 201⟩⟩ ∧
    (matchDisposal [⟨0, "BTC", ⟨2021, 101⟩, 5, 10, 50⟩]
        ⟨"BTC", 12, 96, 8, ⟨2021, 201⟩⟩).gain
      = eligibleTotal [⟨0, "BTC", ⟨2021, 101⟩, 5, 10, 50⟩]
          ⟨"BTC", 12, 96, 8, ⟨2021, 201⟩⟩ * 12
        - eligibleCostTotal [⟨0, "BTC", ⟨2021, 101⟩, 5, 10, 50⟩]
            ⟨"BTC", 12, 96, 8, ⟨2021, 201⟩⟩ :=
  c5_insufficient_inventory [⟨0, "BTC", ⟨2021, 101⟩, 5, 10, 50⟩]
    ⟨"BTC", 12, 96, 8, ⟨2021, 201⟩⟩
    (by
      intro r hr
      rcases List.mem_singleton.mp hr with rfl
      norm_num)
    (by norm_num [eligibleTotal, eligibleRows, eligb, DT.ltb])

/-! ### Lot conservation (claim C4) -/

/-- Accounting view of one ledger row after a disposal's matching state
`ms`: quantity 0 if the row was consumed whole, the updated quantity if
the partial branch rewrote it, its own quantity otherwise. -/
def postQty (ms : MState) (r : LedgerRow) : ℚ :=
  if r.id ∈ ms.removed then 0
  else
    match ms.updated with
    | some u => if r.id = u.1 then u.2.1 else r.quantity
    | none => r.quantity

theorem postQty_eq_quantity (ms : MState) (r : LedgerRow)
    (h1 : r.id ∉ ms.removed) (h2 : ∀ u, ms.updated = some u → r.id ≠ u.1) :
    postQty ms r = r.quantity := by
  unfold postQty
  rw [if_neg h1]
  cases hu : ms.updated with
  | none => rfl
  | some u =>
    show (if r.id = u.1 then u.2.1 else r.quantity) = r.quantity
    rw [if_neg (h2 u hu)]

theorem postQty_congr (ms ms' : MState) (r : LedgerRow)
    (h1 : r.id ∈ ms.removed ↔ r.id ∈ ms'.removed) (h2 : ms.updated = ms'.updated) :
    postQty ms r = postQty ms' r := by
  unfold postQty
  rw [h2]
  by_cases hin : r.id ∈ ms.removed
  · rw [if_pos hin, if_pos (h1.mp hin)]
  · rw [if_neg hin, if_neg (fun hcon => hin (h1.mpr hcon))]

theorem stepLot_updated_none {p : ℚ} {s : MState} {r : LedgerRow}
    (h : (stepLot p s r).updated = none) : s.updated = none := by
  unfold stepLot at h
  split at h
  · split at h
    · exact h
    · cases h
  · exact h

theorem foldl_stepLot_updated_none {p : ℚ} :
    ∀ (l : List LedgerRow) (s : MState),
      (l.foldl (stepLot p) s).updated = none → s.updated = none
  | [], _, h => h
  | r :: l, s, h =>
    stepLot_updated_none (foldl_stepLot_updated_none l (stepLot p s r) h)

theorem postQty_foldl_frozen (p : ℚ) (l : List LedgerRow) (s : MState) (r : LedgerRow)
    (hid : r.id ∉ l.map (fun r => r.id))
    (hupd : ∀ u0, s.updated = some u0 → u0.1 ≠ r.id) :
    postQty (l.foldl (stepLot p) s) r = postQty s r := by
  have hrem : r.id ∈ (l.foldl (stepLot p) s).removed ↔ r.id ∈ s.removed := by
    constructor
    · intro h
      rcases foldl_stepLot_removed_from l s r.id h with h | ⟨r2, hr2, hid2⟩
      · exact h
      · exact absurd (List.mem_map.mpr ⟨r2, hr2, hid2⟩) hid
    · exact fun h => foldl_stepLot_removed_sub l s h
  unfold postQty
  by_cases hin : r.id ∈ s.removed
  · rw [if_pos hin, if_pos (hrem.mpr hin)]
  · rw [if_neg hin, if_neg (fun hcon => hin (hrem.mp hcon))]
    cases hfin : (l.foldl (stepLot p) s).updated with
    | none => rw [foldl_stepLot_updated_none l s hfin]
    | some u1 =>
      rcases foldl_stepLot_updated_from l s u1 hfin with h | ⟨r2, hr2, hid2, _⟩
      · rw [h]
      · have hne : r.id ≠ u1.1 := by
          intro hcon
          exact hid (List.mem_map.mpr ⟨r2, hr2, by rw [← hid2, ← hcon]⟩)
        show (if r.id = u1.1 then u1.2.1 else r.quantity)
          = match s.updated with
            | some u => if r.id = u.1 then u.2.1 else r.quantity
            | none => r.quantity
        rw [if_neg hne]
        cases hu : s.updated with
        | none => rfl
        | some u0 =>
          show r.quantity = if r.id = u0.1 then u0.2.1 else r.quantity
          rw [if_neg (fun hcon => hupd u0 hu hcon.symm)]

/-- Conservation invariant of the consumption loop: the sum of the
post-state quantities of the processed rows, minus the remaining
disposal quantity, is unchanged by the loop — each consumed unit leaves
a lot exactly as it leaves the remaining quantity. -/
theorem foldl_stepLot_lotsSum (p : ℚ) :
    ∀ (l : List LedgerRow) (s : MState),
      (l.map (fun r => r.id)).Nodup →
      (∀ r ∈ l, r.id ∉ s.removed ∧ ∀ u, s.updated = some u → u.1 ≠ r.id) →
      (l.map (postQty (l.foldl (stepLot p) s))).sum - (l.foldl (stepLot p) s).remaining
        = (l.map (postQty s)).sum - s.remaining
  | [], s, _, _ => rfl
  | lot :: l, s, hnd, hfresh => by
    rw [List.map_cons, List.nodup_cons] at hnd
    have hfreshlot := hfresh lot (List.mem_cons_self lot l)
    have hlotid : lot.id ∉ l.map (fun r => r.id) := hnd.1
    rw [List.foldl_cons, List.map_cons, List.sum_cons, List.map_cons, List.sum_cons]
    by_cases h0 : 0 < s.remaining
    · by_cases hqlt : lot.quantity < s.remaining
      · have hstep : stepLot p s lot =
            { remaining := s.remaining - lot.quantity
              gain := s.gain + lot.quantity * p - lot.total
              initial_value := s.initial_value + lot.total
              final_value := s.final_value + lot.quantity * p
              removed := lot.id :: s.removed
              updated := s.updated } := by
          unfold stepLot
          rw [if_pos h0, if_pos hqlt]
        have hfresh' : ∀ r ∈ l, r.id ∉ (stepLot p s lot).removed ∧
            ∀ u, (stepLot p s lot).updated = some u → u.1 ≠ r.id := by
          intro r hr
          rw [hstep]
          constructor
          · simp only [List.mem_cons]
            push_neg
            refine ⟨?_, (hfresh r (List.mem_cons_of_mem lot hr)).1⟩
            intro hcon
            exact hlotid (hcon ▸ List.mem_map.mpr ⟨r, hr, rfl⟩)
          · exact (hfresh r (List.mem_cons_of_mem lot hr)).2
        have ih := foldl_stepLot_lotsSum p l (stepLot p s lot) hnd.2 hfresh'
        have hfrozen : postQty (l.foldl (stepLot p) (stepLot p s lot)) lot
            = postQty (stepLot p s lot) lot := by
          refine postQty_foldl_frozen p l (stepLot p s lot) lot hlotid ?_
          intro u0 hu0 hcon
          rw [hstep] at hu0
          exact hfreshlot.2 u0 hu0 hcon
        have hlot_removed : postQty (stepLot p s lot) lot = 0 := by
          unfold postQty
          rw [hstep]
          rw [if_pos (List.mem_cons_self _ _)]
        have hlot_before : postQty s lot = lot.quantity :=
          postQty_eq_quantity s lot hfreshlot.1
            (fun u hu hcon => hfreshlot.2 u hu hcon.symm)
        have hrest : (l.map (postQty (stepLot p s lot))).sum = (l.map (postQty s)).sum := by
          refine congrArg List.sum (List.map_congr_left ?_)
          intro r hr
          refine postQty_congr _ _ r ?_ ?_
          · rw [hstep]
            simp only [List.mem_cons]
            constructor
            · rintro (hcon | h)
              · exact absurd (hcon ▸ List.mem_map.mpr ⟨r, hr, rfl⟩) hlotid
              · exact h
            · exact fun h => Or.inr h
          · rw [hstep]
        have hrem2 : (stepLot p s lot).remaining = s.remaining - lot.quantity := by
          rw [hstep]
        rw [hfrozen, hlot_removed, hlot_before]
        linarith [ih, hrest, hrem2]
      · have hstep : stepLot p s lot =
            { remaining := 0
              gain := s.gain + s.remaining * p - s.remaining * lot.price
              initial_value := s.initial_value + s.remaining * lot.price
              final_value := s.final_value + s.remaining * p
              removed := s.removed
              updated := some (lot.id, lot.quantity - s.remaining,
                lot.total - s.remaining * lot.price) } := by
          unfold stepLot
          rw [if_pos h0, if_neg hqlt]
        have hnoop : l.foldl (stepLot p) (stepLot p s lot) = stepLot p s lot := by
          refine foldl_stepLot_of_nonpos l _ ?_
          rw [hstep]
          norm_num
        rw [hnoop]
        have hlot_after : postQty (stepLot p s lot) lot = lot.quantity - s.remaining := by
          unfold postQty
          rw [hstep]
          rw [if_neg hfreshlot.1]
          show (if lot.id = lot.id then lot.quantity - s.remaining else lot.quantity)
            = lot.quantity - s.remaining
          rw [if_pos rfl]
        have hlot_before : postQty s lot = lot.quantity :=
          postQty_eq_quantity s lot hfreshlot.1
            (fun u hu hcon => hfreshlot.2 u hu hcon.symm)
        have hrest : (l.map (postQty (stepLot p s lot))).sum = (l.map (postQty s)).sum := by
          refine congrArg List.sum (List.map_congr_left ?_)
          intro r hr
          have hfr := hfresh r (List.mem_cons_of_mem lot hr)
          have h1 : postQty (stepLot p s lot) r = r.quantity := by
            refine postQty_eq_quantity _ r ?_ ?_
            · rw [hstep]
              exact hfr.1
            · intro u hu hcon
              rw [hstep] at hu
              rw [Option.some_inj] at hu
              apply hlotid
              rw [← hu] at hcon
              have hre : r.id = lot.id := hcon
              exact hre ▸ List.mem_map.mpr ⟨r, hr, rfl⟩
          have h2 : postQty s r = r.quantity :=
            postQty_eq_quantity s r hfr.1 (fun u hu hcon => hfr.2 u hu hcon.symm)
          rw [h1, h2]
        have hrem2 : (stepLot p s lot).remaining = 0 := by
          rw [hstep]
        rw [hlot_after, hrest, hlot_before, hrem2]
        ring
    · rw [stepLot_of_nonpos lot h0]
      have ih := foldl_stepLot_lotsSum p l s hnd.2
        (fun r hr => hfresh r (List.mem_cons_of_mem lot hr))
      have hfrozen : postQty (l.foldl (stepLot p) s) lot = postQty s lot := by
        refine postQty_foldl_frozen p l s lot hlotid ?_
        intro u0 hu0 hcon
        exact hfreshlot.2 u0 hu0 hcon
      rw [hfrozen]
      linarith [ih]

theorem assetTotal_nil (a : String) : assetTotal a [] = 0 := rfl

theorem assetTotal_applyMatch (a : String) (ms : MState) :
    ∀ ledger : List LedgerRow,
      assetTotal a (applyMatch ledger ms)
        = (ledger.map (fun r => if r.cryptocur == a then postQty ms r else 0)).sum
  | [] => rfl
  | r :: ledger => by
    have ih := assetTotal_applyMatch a ms ledger
    unfold applyMatch assetTotal at ih ⊢
    rw [List.filter_cons]
    by_cases hrm : r.id ∈ ms.removed
    · rw [if_neg (by simpa using hrm)]
      have hpost : postQty ms r = 0 := by
        unfold postQty
        rw [if_pos hrm]
      simp only [List.map_cons, List.sum_cons, hpost, ih]
      by_cases hca : r.cryptocur == a
      · rw [if_pos hca]
        ring
      · rw [if_neg hca]
        ring
    · rw [if_pos (by simpa using hrm)]
      simp only [List.map_cons, List.sum_cons, ih]
      have hhead : (if (applyUpd ms.updated r).cryptocur == a
            then (applyUpd ms.updated r).quantity else 0)
          = (if r.cryptocur == a then postQty ms r else 0) := by
        rw [applyUpd_cryptocur]
        by_cases hca : r.cryptocur == a
        · rw [if_pos hca, if_pos hca]
          have : (applyUpd ms.updated r).quantity = postQty ms r := by
            unfold postQty
            rw [if_neg hrm]
            cases hu : ms.updated with
            | none => rfl
            | some u =>
              obtain ⟨i, q, t⟩ := u
              rw [applyUpd]
              show (if r.id = i then
                  ({ r with quantity := q, total := t } : LedgerRow) else r).quantity
                = if r.id = (i, q, t).1 then (i, q, t).2.1 else r.quantity
              by_cases hid : r.id = i
              · rw [if_pos hid, if_pos hid]
              · rw [if_neg hid, if_neg hid]
          rw [this]
        · rw [if_neg hca, if_neg hca]
      rw [hhead]

theorem sum_map_sub {α : Type} (f g : α → ℚ) :
    ∀ l : List α, (l.map (fun x => f x - g x)).sum = (l.map f).sum - (l.map g).sum
  | [] => by simp
  | x :: l => by
    rw [List.map_cons, List.map_cons, List.map_cons, List.sum_cons, List.sum_cons,
      List.sum_cons, sum_map_sub f g l]
    ring

theorem sum_map_filter_of_zero {α : Type} (f : α → ℚ) (P : α → Bool) :
    ∀ l : List α, (∀ x ∈ l, P x = false → f x = 0) →
      (l.map f).sum = ((l.filter P).map f).sum
  | [], _ => rfl
  | x :: l, h => by
    rw [List.map_cons, List.sum_cons, List.filter_cons]
    have ih := sum_map_filter_of_zero f P l (fun y hy => h y (List.mem_cons_of_mem x hy))
    by_cases hp : P x
    · rw [if_pos (by simp [hp]), List.map_cons, List.sum_cons, ih]
    · rw [if_neg (by simp [hp]), h x (List.mem_cons_self x l) (by simpa using hp), ih]
      ring

/-- Rows not eligible for a disposal are untouched by its matching. -/
theorem postQty_untouched (ledger : List LedgerRow) (s : SellRow)
    (hnd : (ledger.map (fun r => r.id)).Nodup) (r : LedgerRow)
    (hr : r ∈ ledger) (hne : eligb s r = false) :
    postQty (matchDisposal ledger s) r = r.quantity := by
  refine postQty_eq_quantity _ r ?_ ?_
  · intro hcon
    rcases foldl_stepLot_removed_from _ _ r.id hcon with h | ⟨r2, hr2, hid⟩
    · cases h
    · have hre := mem_sortLifo_elig.mp hr2
      have : r2 = r := List.inj_on_of_nodup_map hnd hre.1 hr hid
      rw [this] at hre
      rw [hre.2] at hne
      cases hne
  · intro u hu hcon
    rcases foldl_stepLot_updated_from _ _ u hu with h | ⟨r2, hr2, hid, _⟩
    · cases h
    · have hre := mem_sortLifo_elig.mp hr2
      have hid2 : r2.id = r.id := by rw [← hid, ← hcon]
      have : r2 = r := List.inj_on_of_nodup_map hnd hre.1 hr hid2
      rw [this] at hre
      rw [hre.2] at hne
      cases hne

/-- Per-disposal conservation: processing one disposal lowers the
asset's total held quantity by exactly the quantity actually consumed
(`s.quantity -` the final remaining), and leaves other assets' totals
unchanged. -/
theorem assetTotal_applySell (a : String) (ledger : List LedgerRow) (s : SellRow)
    (hnd : (ledger.map (fun r => r.id)).Nodup) :
    assetTotal a (applySell ledger s)
      = assetTotal a ledger
        - (if s.asset == a then s.quantity - (matchDisposal ledger s).remaining else 0) := by
  by_cases hqs : 0 < s.quantity
  · unfold applySell
    rw [if_pos hqs]
    rw [assetTotal_applyMatch]
    have hsub := sum_map_sub (fun r => if r.cryptocur == a then r.quantity else 0)
      (fun r => if r.cryptocur == a then postQty (matchDisposal ledger s) r else 0) ledger
    have hdiff : ∀ r ∈ ledger,
        ((if r.cryptocur == a then r.quantity else 0)
          - (if r.cryptocur == a then postQty (matchDisposal ledger s) r else 0))
        = (if r.cryptocur == a then r.quantity - postQty (matchDisposal ledger s) r else 0) := by
      intro r _
      by_cases hca : r.cryptocur == a
      · rw [if_pos hca, if_pos hca, if_pos hca]
      · rw [if_neg hca, if_neg hca, if_neg hca]
        ring
    have hstep1 : (ledger.map (fun r =>
          if r.cryptocur == a then r.quantity - postQty (matchDisposal ledger s) r else 0)).sum
        = assetTotal a ledger
          - (ledger.map (fun r =>
              if r.cryptocur == a then postQty (matchDisposal ledger s) r else 0)).sum := by
      rw [List.map_congr_left hdiff] at hsub
      rw [hsub]
      rfl
    have hstep2 : (ledger.map (fun r =>
          if r.cryptocur == a then r.quantity - postQty (matchDisposal ledger s) r else 0)).sum
        = (((ledger.filter (eligb s)).map (fun r =>
            if r.cryptocur == a then r.quantity - postQty (matchDisposal ledger s) r else 0)).sum) := by
      refine sum_map_filter_of_zero _ _ ledger ?_
      intro r hr hP
      rw [postQty_untouched ledger s hnd r hr hP]
      by_cases hca : r.cryptocur == a
      · rw [if_pos hca]
        ring
      · rw [if_neg hca]
    have hperm : List.Perm (sortLifo (eligibleRows ledger s)) (eligibleRows ledger s) :=
      List.perm_insertionSort _ _
    by_cases ha : s.asset == a
    · have hpt : ∀ r ∈ ledger.filter (eligb s),
          (if r.cryptocur == a then r.quantity - postQty (matchDisposal ledger s) r else 0)
            = r.quantity - postQty (matchDisposal ledger s) r := by
        intro r hr
        have he := (List.mem_filter.mp hr).2
        rw [eligb, Bool.and_eq_true] at he
        have hcca : r.cryptocur = a := by
          rw [beq_iff_eq.mp he.1]
          exact beq_iff_eq.mp ha
        rw [if_pos (beq_iff_eq.mpr hcca)]
      have hsum3 : ((ledger.filter (eligb s)).map (fun r =>
            if r.cryptocur == a then r.quantity - postQty (matchDisposal ledger s) r else 0)).sum
          = ((ledger.filter (eligb s)).map (fun r =>
              r.quantity - postQty (matchDisposal ledger s) r)).sum := by
        rw [List.map_congr_left hpt]
      have hsum4 := sum_map_sub (fun r => r.quantity)
        (postQty (matchDisposal ledger s)) (ledger.filter (eligb s))
      -- conservation over the sorted eligible rows
      have hinv := foldl_stepLot_lotsSum s.price (sortLifo (eligibleRows ledger s))
        ⟨s.quantity, 0, 0, 0, [], none⟩ (sortLifo_ids_nodup hnd)
        (fun r _ => ⟨List.not_mem_nil r.id, fun u hu => by cases hu⟩)
      have hseedsum : ((sortLifo (eligibleRows ledger s)).map
            (postQty (⟨s.quantity, 0, 0, 0, [], none⟩ : MState))).sum
          = ((sortLifo (eligibleRows ledger s)).map (fun r => r.quantity)).sum := by
        refine congrArg List.sum (List.map_congr_left ?_)
        intro r _
        exact postQty_eq_quantity _ r (List.not_mem_nil r.id) (fun u hu => by cases hu)
      have hqperm : ((sortLifo (eligibleRows ledger s)).map (fun r => r.quantity)).sum
          = ((ledger.filter (eligb s)).map (fun r => r.quantity)).sum :=
        (hperm.map _).sum_eq
      have hpostperm : ((sortLifo (eligibleRows ledger s)).map
            (postQty (matchDisposal ledger s))).sum
          = ((ledger.filter (eligb s)).map (postQty (matchDisposal ledger s))).sum :=
        (hperm.map _).sum_eq
      rw [if_pos ha]
      have hmd : ((sortLifo (eligibleRows ledger s)).foldl (stepLot s.price)
          (⟨s.quantity, 0, 0, 0, [], none⟩ : MState)) = matchDisposal ledger s := rfl
      rw [hmd] at hinv
      have hseedrem : (⟨s.quantity, 0, 0, 0, [], none⟩ : MState).remaining = s.quantity := rfl
      rw [hseedrem] at hinv
      linarith [hstep1, hstep2, hsum3, hsum4, hinv, hseedsum, hqperm, hpostperm]
    · have hpt : ∀ r ∈ ledger.filter (eligb s),
          (if r.cryptocur == a then r.quantity - postQty (matchDisposal ledger s) r else 0)
            = 0 := by
        intro r hr
        have he := (List.mem_filter.mp hr).2
        rw [eligb, Bool.and_eq_true] at he
        by_cases hca : r.cryptocur == a
        · exfalso
          apply ha
          rw [← beq_iff_eq.mp he.1]
          exact hca
        · rw [if_neg hca]
      have hz : ((ledger.filter (eligb s)).map (fun r =>
            if r.cryptocur == a then r.quantity - postQty (matchDisposal ledger s) r else 0)).sum
          = 0 := by
        rw [List.map_congr_left hpt]
        simp
      rw [if_neg ha]
      linarith [hstep1, hstep2, hz]
  · unfold applySell
    rw [if_neg hqs]
    rw [matchDisposal_of_nonpos ledger s hqs]
    by_cases ha : s.asset == a
    · rw [if_pos ha]
      ring
    · rw [if_neg ha]
      ring

theorem foldl_stepLot_rem_zero (p : ℚ) :
    ∀ (l : List LedgerRow) (s : MState), 0 ≤ s.remaining →
      s.remaining ≤ (l.map (fun r => r.quantity)).sum →
      (l.foldl (stepLot p) s).remaining = 0
  | [], s, h0, hle => by
    rw [List.foldl_nil]
    have : s.remaining ≤ 0 := by simpa using hle
    linarith
  | lot :: l, s, h0, hle => by
    rw [List.map_cons, List.sum_cons] at hle
    rw [List.foldl_cons]
    by_cases hpos : 0 < s.remaining
    · by_cases hqlt : lot.quantity < s.remaining
      · have hstep : stepLot p s lot =
            { remaining := s.remaining - lot.quantity
              gain := s.gain + lot.quantity * p - lot.total
              initial_value := s.initial_value + lot.total
              final_value := s.final_value + lot.quantity * p
              removed := lot.id :: s.removed
              updated := s.updated } := by
          unfold stepLot
          rw [if_pos hpos, if_pos hqlt]
        refine foldl_stepLot_rem_zero p l (stepLot p s lot) ?_ ?_
        · rw [hstep]
          simp only
          linarith
        · rw [hstep]
          simp only
          linarith
      · have hz : (stepLot p s lot).remaining = 0 := by
          unfold stepLot
          rw [if_pos hpos, if_neg hqlt]
        rw [foldl_stepLot_of_nonpos l _ (by rw [hz]; norm_num)]
        exact hz
    · rw [stepLot_of_nonpos lot hpos]
      rw [foldl_stepLot_of_nonpos l s hpos]
      linarith

/-- A feasible disposal is fully matched: its final remaining quantity
is zero. -/
theorem matchDisposal_remaining_zero (ledger : List LedgerRow) (s : SellRow)
    (h0 : 0 ≤ s.quantity) (hle : s.quantity ≤ eligibleTotal ledger s) :
    (matchDisposal ledger s).remaining = 0 := by
  unfold matchDisposal
  refine foldl_stepLot_rem_zero s.price _ _ h0 ?_
  have hperm : List.Perm (sortLifo (eligibleRows ledger s)) (eligibleRows ledger s) :=
    List.perm_insertionSort _ _
  have : ((sortLifo (eligibleRows ledger s)).map (fun r => r.quantity)).sum
      = eligibleTotal ledger s := (hperm.map _).sum_eq
  rw [this]
  exact hle

theorem applySell_ids_sublist (ledger : List LedgerRow) (s : SellRow) :
    List.Sublist ((applySell ledger s).map (fun r => r.id)) (ledger.map (fun r => r.id)) := by
  unfold applySell
  split
  · unfold applyMatch
    rw [List.map_map]
    have : ((fun r : LedgerRow => r.id) ∘ applyUpd (matchDisposal ledger s).updated)
        = fun r : LedgerRow => r.id := by
      funext r
      exact applyUpd_id _ r
    rw [this]
    exact (List.filter_sublist ledger).map _
  · exact List.Sublist.refl _

theorem applySell_ids_nodup {ledger : List LedgerRow} (s : SellRow)
    (hnd : (ledger.map (fun r => r.id)).Nodup) :
    ((applySell ledger s).map (fun r => r.id)).Nodup :=
  (applySell_ids_sublist ledger s).nodup hnd

theorem conservation_fold (a : String) :
    ∀ (sells : List SellRow) (ledger : List LedgerRow),
      (ledger.map (fun r => r.id)).Nodup →
      (∀ s ∈ sells, 0 < s.quantity) →
      feasibleSells ledger sells = true →
      assetTotal a (sells.foldl applySell ledger) + sellsTotalFor a sells
        = assetTotal a ledger
  | [], ledger, _, _, _ => by
    rw [List.foldl_nil]
    show assetTotal a ledger + ([] : List ℚ).sum = assetTotal a ledger
    simp
  | s :: rest, ledger, hnd, hpos, hfeas => by
    rw [List.foldl_cons]
    have hfeas' := hfeas
    rw [feasibleSells, Bool.and_eq_true, decide_eq_true_eq] at hfeas'
    have hrem0 : (matchDisposal ledger s).remaining = 0 :=
      matchDisposal_remaining_zero ledger s
        (le_of_lt (hpos s (List.mem_cons_self s rest))) hfeas'.1
    have hcons := assetTotal_applySell a ledger s hnd
    rw [hrem0] at hcons
    have ih := conservation_fold a rest (applySell ledger s)
      (applySell_ids_nodup s hnd)
      (fun t ht => hpos t (List.mem_cons_of_mem s ht))
      hfeas'.2
    have hst : sellsTotalFor a (s :: rest)
        = (if s.asset == a then s.quantity else 0) + sellsTotalFor a rest := by
      unfold sellsTotalFor
      rw [List.map_cons, List.sum_cons]
    rw [hst]
    by_cases ha : s.asset == a
    · rw [if_pos ha]
      rw [if_pos ha] at hcons
      linarith [ih, hcons]
    · rw [if_neg ha]
      rw [if_neg ha] at hcons
      linarith [ih, hcons]

/-- C4.  Lot conservation: for a ledger with distinct row indices and a
disposal sequence in which every disposal (with positive quantity) asks
for no more than the quantity then available in its eligible lots, the
total quantity consumed by the matches for an asset — the sum of that
asset's disposal quantities, every one fully matched — plus the total
remaining quantity of that asset's lots in the returned inventory equals
the asset's total quantity in the input ledger. -/
theorem c4_lot_conservation (ledger : List LedgerRow) (sells : List SellRow) (a : String)
    (hnd : (ledger.map (fun r => r.id)).Nodup)
    (hpos : ∀ s ∈ sells, 0 < s.quantity)
    (hfeas : feasibleSells ledger sells = true) :
    assetTotal a (get_ledger_after_tax_computation ledger sells).1 + sellsTotalFor a sells
      = assetTotal a ledger := by
  have hfst : (get_ledger_after_tax_computation ledger sells).1
      = sells.foldl applySell ledger := by
    unfold get_ledger_after_tax_computation
    exact foldl_processSell_fst sells (ledger, [])
  rw [hfst]
  exact conservation_fold a sells ledger hnd hpos hfeas

/-- Witness for C4: a 5-BTC lot, disposals of 3 then 2 BTC; the returned
inventory holds 0 BTC and 0 + (3 + 2) = 5. -/
theorem c4_witness :
    assetTotal "BTC" (get_ledger_after_tax_computation
        [⟨0, "BTC", ⟨2021, 101⟩, 5, 10, 50⟩]
        [⟨"BTC", 12, 36, 3, ⟨2021, 201⟩⟩, ⟨"BTC", 13, 26, 2, ⟨2021, 301⟩⟩]).1
      + sellsTotalFor "BTC"
          [⟨"BTC", 12, 36, 3, ⟨2021, 201⟩⟩, ⟨"BTC", 13, 26, 2, ⟨2021, 301⟩⟩]
      = assetTotal "BTC" [⟨0, "BTC", ⟨2021, 101⟩, 5, 10, 50⟩] :=
  c4_lot_conservation [⟨0, "BTC", ⟨2021, 101⟩, 5, 10, 50⟩]
    [⟨"BTC", 12, 36, 3, ⟨2021, 201⟩⟩, ⟨"BTC", 13, 26, 2, ⟨2021, 301⟩⟩] "BTC"
    (by decide)
    (by
      intro t ht
      rcases List.mem_cons.mp ht with rfl | ht
      · norm_num
      · rcases List.mem_singleton.mp ht with rfl
        norm_num)
    (by
      norm_num [feasibleSells, applySell, matchDisposal, eligibleRows, eligb, sortLifo,
        List.insertionSort, List.orderedInsert, lifoRel, DT.leb, DT.ltb, stepLot,
        applyMatch, applyUpd, eligibleTotal])
